import Mathlib

/-!
# SBKC: kernel instruction statistics

A shallow embedding of `AnalyseFunction` from `src/main.cpp`.

* Basic blocks of the analysed function are identified by `Fin n` (the identity
  of a `BasicBlock *`), loops by `Fin m` (the identity of a `Loop *`).
* `unsigned int` counters are natural numbers below `2 ^ 32`; `++` and `+=`
  wrap modulo `2 ^ 32`.
* `std::map<K *, Stats>` is a partial function on the keys, iterated in key
  order; `std::set<BasicBlock *>` is a finite set; `std::queue` is a list with
  `push` at the back and `front`/`pop` at the head.
* The results of `LoopInfo` (`getLoopFor`, `getLoopLatch`, `getLoopDepth`) are
  computed by LLVM and are taken as a parameter.
* The `while` loop is run with fuel; `none` stands for a loop that has not
  finished within the fuel.
-/

namespace SBKC

/-! ## LLVM data model -/

/-- Instruction opcodes of LLVM IR. -/
inductive Opcode
  | Ret | Br | Switch | IndirectBr | Invoke | Resume | Unreachable
  | Add | FAdd | Sub | FSub | Mul | FMul
  | UDiv | SDiv | FDiv | URem | SRem | FRem
  | Shl | LShr | AShr | And | Or | Xor
  | Alloca | Load | Store | GetElementPtr | Fence | AtomicCmpXchg | AtomicRMW
  | Trunc | ZExt | SExt | FPToUI | FPToSI | UIToFP | SIToFP | FPTrunc | FPExt
  | PtrToInt | IntToPtr | BitCast | AddrSpaceCast
  | ICmp | FCmp | PHI | Call | Select | VAArg
  | ExtractElement | InsertElement | ShuffleVector
  | ExtractValue | InsertValue | LandingPad
  deriving DecidableEq, Repr

/-- First-class non-vector types of LLVM IR, as far as the analysis looks at them. -/
inductive ScalarTy
  | Void | Integer | FloatingPoint | Pointer | Other
  deriving DecidableEq, Repr

/-- Result type of an instruction: a non-vector type or a vector of some element type. -/
inductive Ty
  | Scalar (t : ScalarTy)
  | Vector (elem : ScalarTy)
  deriving DecidableEq, Repr

/-- Model of `Type::isVectorTy`. -/
def Ty.isVectorTy : Ty → Bool
  | .Scalar _ => false
  | .Vector _ => true

/-- Model of `Type::isFloatingPointTy`: true for the (non-vector) floating-point types only. -/
def Ty.isFloatingPointTy : Ty → Bool
  | .Scalar .FloatingPoint => true
  | _ => false

/-- Model of `Type::getScalarType`: the element type of a vector, the type itself otherwise. -/
def Ty.getScalarType : Ty → Ty
  | .Scalar t => .Scalar t
  | .Vector e => .Scalar e

/-- Model of `Type::isFPOrFPVectorTy`: `getScalarType()->isFloatingPointTy()`. -/
def Ty.isFPOrFPVectorTy (t : Ty) : Bool :=
  t.getScalarType.isFloatingPointTy

/-- An instruction: opcode, result type, and for a `Br` whether it is conditional,
for a terminator its successor blocks. -/
structure Instruction (n : Nat) where
  opcode : Opcode
  type : Ty
  isConditional : Bool
  successors : List (Fin n)
  deriving DecidableEq, Repr

/-- A basic block: its instructions before the terminator, and the terminator. -/
structure BasicBlock (n : Nat) where
  body : List (Instruction n)
  terminator : Instruction n
  deriving DecidableEq, Repr

/-- The instructions of a block in program order (the range of `for (Instruction& ins : *current)`). -/
def BasicBlock.instructions {n : Nat} (b : BasicBlock n) : List (Instruction n) :=
  b.body ++ [b.terminator]

/-- A function with `n` basic blocks and a designated entry block. -/
structure Function (n : Nat) where
  block : Fin n → BasicBlock n
  entry : Fin n

/-- Successor list of the terminator of a block
(`getTerminator()->getSuccessor(0 .. getNumSuccessors()-1)`). -/
def Function.successors {n : Nat} (fn : Function n) (b : Fin n) : List (Fin n) :=
  (fn.block b).terminator.successors

/-- The results of LLVM's loop analysis that `AnalyseFunction` consults. -/
structure LoopInfo (n m : Nat) where
  /-- `LoopInfoBase::getLoopFor`: innermost loop containing the block, if any. -/
  getLoopFor : Fin n → Option (Fin m)
  /-- `Loop::getLoopLatch`: the single latch block of the loop, if it has exactly one. -/
  getLoopLatch : Fin m → Option (Fin n)
  /-- `Loop::getLoopDepth`: nesting depth of a loop. -/
  loopDepth : Fin m → Nat

/-- `LoopInfoBase::getLoopDepth(BB)`: depth of the innermost loop of a block, `0` outside loops. -/
def LoopInfo.getLoopDepth {n m : Nat} (li : LoopInfo n m) (b : Fin n) : Nat :=
  match li.getLoopFor b with
  | none => 0
  | some l => li.loopDepth l

/-! ## Counters -/

/-- Number of values of an `unsigned int`. -/
def UINT_RANGE : Nat := 4294967296

/-- `x++` on an `unsigned int`. -/
def inc (x : Nat) : Nat := (x + 1) % UINT_RANGE

/-- `x += y` on `unsigned int`s. -/
def addU (x y : Nat) : Nat := (x + y) % UINT_RANGE

/-- `struct ClassStats`. -/
structure ClassStats where
  VectorInt : Nat
  VectorFP : Nat
  ScalarInt : Nat
  ScalarFP : Nat
  deriving DecidableEq, Repr

/-- `struct Stats`. -/
structure Stats where
  ArithOps : ClassStats
  IntToFP : Nat
  FPToInt : Nat
  LatchBranches : Nat
  Branches : Nat
  LatchJumps : Nat
  Jumps : Nat
  GlobalMemoryLoad : Nat
  GlobalMemoryStore : Nat
  LocalMemoryLoad : Nat
  LocalMemoryStore : Nat
  deriving DecidableEq, Repr

/-- The constructor `Stats()`: every counter zeroed by `bzero`. -/
def Stats.zero : Stats :=
  { ArithOps := { VectorInt := 0, VectorFP := 0, ScalarInt := 0, ScalarFP := 0 }
    IntToFP := 0, FPToInt := 0
    LatchBranches := 0, Branches := 0
    LatchJumps := 0, Jumps := 0
    GlobalMemoryLoad := 0, GlobalMemoryStore := 0
    LocalMemoryLoad := 0, LocalMemoryStore := 0 }

/-! ## Instruction classification (the `switch` of lines 70-173) -/

/-- The test `loop && loop->getLoopLatch() == current`. -/
def latchTest {n m : Nat} (li : LoopInfo n m) (loop : Option (Fin m)) (current : Fin n) : Bool :=
  match loop with
  | none => false
  | some l => decide (li.getLoopLatch l = some current)

/-- The four-way bucket choice of lines 91-101. -/
def countArith (stats : Stats) (t : Ty) : Stats :=
  if t.isVectorTy then
    if t.isFPOrFPVectorTy then
      { stats with ArithOps := { stats.ArithOps with VectorFP := inc stats.ArithOps.VectorFP } }
    else
      { stats with ArithOps := { stats.ArithOps with VectorInt := inc stats.ArithOps.VectorInt } }
  else if t.isFloatingPointTy then
    { stats with ArithOps := { stats.ArithOps with ScalarFP := inc stats.ArithOps.ScalarFP } }
  else
    { stats with ArithOps := { stats.ArithOps with ScalarInt := inc stats.ArithOps.ScalarInt } }

/-- The two-way bucket choice of lines 121-125. -/
def countShuffle (stats : Stats) (t : Ty) : Stats :=
  if t.isFPOrFPVectorTy then
    { stats with ArithOps := { stats.ArithOps with VectorFP := inc stats.ArithOps.VectorFP } }
  else
    { stats with ArithOps := { stats.ArithOps with VectorInt := inc stats.ArithOps.VectorInt } }

/-- The branch classification of lines 146-158. -/
def countBr {n m : Nat} (li : LoopInfo n m) (loop : Option (Fin m)) (current : Fin n)
    (stats : Stats) (conditional : Bool) : Stats :=
  if conditional then
    if latchTest li loop current then
      { stats with LatchBranches := inc stats.LatchBranches }
    else
      { stats with Branches := inc stats.Branches }
  else
    if latchTest li loop current then
      { stats with LatchJumps := inc stats.LatchJumps }
    else
      { stats with Jumps := inc stats.Jumps }

/-- One execution of the body of `for (Instruction& ins : *current)`: the `switch` on the opcode. -/
def classify {n m : Nat} (li : LoopInfo n m) (loop : Option (Fin m)) (current : Fin n)
    (stats : Stats) (ins : Instruction n) : Stats :=
  match ins.opcode with
  | .Add | .FAdd | .Sub | .FSub | .Mul | .FMul
  | .UDiv | .SDiv | .FDiv | .URem | .SRem | .FRem => countArith stats ins.type
  | .ShuffleVector => countShuffle stats ins.type
  | .UIToFP | .SIToFP => { stats with IntToFP := inc stats.IntToFP }
  | .FPToUI | .FPToSI => { stats with FPToInt := inc stats.FPToInt }
  | .Br => countBr li loop current stats ins.isConditional
  | .Load => { stats with GlobalMemoryLoad := inc stats.GlobalMemoryLoad }
  | .Store => { stats with GlobalMemoryStore := inc stats.GlobalMemoryStore }
  | _ => stats

/-- The whole `for` loop over the instructions of `current`, started on `stats`. -/
def classifyBlock {n m : Nat} (fn : Function n) (li : LoopInfo n m) (current : Fin n)
    (stats : Stats) : Stats :=
  (fn.block current).instructions.foldl (classify li (li.getLoopFor current) current) stats

/-! ## The worklist traversal (lines 55-180) -/

/-- The local state of the `while` loop. -/
structure LoopState (n : Nat) where
  block_stats : Fin n → Option Stats
  seen : Finset (Fin n)
  block_stack : List (Fin n)

/-- State before the loop: empty maps, the entry block pushed. -/
def initialState {n : Nat} (fn : Function n) : LoopState n :=
  { block_stats := fun _ => none, seen := ∅, block_stack := [fn.entry] }

/-- One iteration of the `while` loop on a non-empty queue whose front is `current`
and whose remainder is `rest`. -/
def iteration {n m : Nat} (fn : Function n) (li : LoopInfo n m) (st : LoopState n)
    (current : Fin n) (rest : List (Fin n)) : LoopState n :=
  if current ∈ st.seen then
    { st with block_stack := rest }
  else
    { block_stats :=
        Function.update st.block_stats current
          (some (classifyBlock fn li current ((st.block_stats current).getD Stats.zero)))
      seen := insert current st.seen
      block_stack := rest ++ fn.successors current }

/-- The `while (!block_stack.empty())` loop, with at most `fuel` iterations. -/
def whileLoop {n m : Nat} (fn : Function n) (li : LoopInfo n m) :
    Nat → LoopState n → Option (LoopState n)
  | 0, st =>
    match st.block_stack with
    | [] => some st
    | _ :: _ => none
  | fuel + 1, st =>
    match st.block_stack with
    | [] => some st
    | current :: rest => whileLoop fn li fuel (iteration fn li st current rest)

/-- The blocks on which the `while` loop runs the classification (the iterations that get
past the `continue` of line 63), in order, over at most `fuel` iterations. -/
def visitTrace {n m : Nat} (fn : Function n) (li : LoopInfo n m) :
    Nat → LoopState n → List (Fin n)
  | 0, _ => []
  | fuel + 1, st =>
    match st.block_stack with
    | [] => []
    | current :: rest =>
      if current ∈ st.seen then visitTrace fn li fuel (iteration fn li st current rest)
      else current :: visitTrace fn li fuel (iteration fn li st current rest)

/-- Number of successor edges of the function, plus one: enough iterations for any traversal. -/
def Function.fuel {n : Nat} (fn : Function n) : Nat :=
  1 + ((List.finRange n).map (fun b => (fn.successors b).length)).sum

/-! ## Aggregation and report (lines 182-252) -/

/-- The entries of a `std::map` in iteration (key) order. -/
def entries {k : Nat} (table : Fin k → Option Stats) : List (Fin k × Stats) :=
  (List.finRange k).filterMap (fun i => (table i).map (fun s => (i, s)))

/-- Body of the loop of lines 182-192 for one entry `bs` of `block_stats`. -/
def aggregateStep {n m : Nat} (li : LoopInfo n m) (loop_stats : Fin m → Option Stats)
    (bs : Fin n × Stats) : Fin m → Option Stats :=
  match li.getLoopFor bs.1 with
  | none => loop_stats
  | some loop =>
    let ls := (loop_stats loop).getD Stats.zero
    Function.update loop_stats loop
      (some { ls with
        ArithOps :=
          { VectorFP := addU ls.ArithOps.VectorFP bs.2.ArithOps.VectorFP
            VectorInt := addU ls.ArithOps.VectorInt bs.2.ArithOps.VectorInt
            ScalarFP := addU ls.ArithOps.ScalarFP bs.2.ArithOps.ScalarFP
            ScalarInt := addU ls.ArithOps.ScalarInt bs.2.ArithOps.ScalarInt } })

/-- The loop of lines 182-192: `loop_stats` built from `block_stats`. -/
def aggregateLoops {n m : Nat} (li : LoopInfo n m) (block_stats : Fin n → Option Stats) :
    Fin m → Option Stats :=
  (entries block_stats).foldl (aggregateStep li) (fun _ => none)

/-- The accumulation of lines 206-220 for one entry of `block_stats`. -/
def totalsStep (totals : Stats) (stats : Stats) : Stats :=
  { totals with
    ArithOps :=
      { VectorFP := addU totals.ArithOps.VectorFP stats.ArithOps.VectorFP
        VectorInt := addU totals.ArithOps.VectorInt stats.ArithOps.VectorInt
        ScalarFP := addU totals.ArithOps.ScalarFP stats.ArithOps.ScalarFP
        ScalarInt := addU totals.ArithOps.ScalarInt stats.ArithOps.ScalarInt }
    LatchBranches := addU totals.LatchBranches stats.LatchBranches
    Branches := addU totals.Branches stats.Branches
    LatchJumps := addU totals.LatchJumps stats.LatchJumps
    Jumps := addU totals.Jumps stats.Jumps
    LocalMemoryLoad := addU totals.LocalMemoryLoad stats.LocalMemoryLoad
    LocalMemoryStore := addU totals.LocalMemoryStore stats.LocalMemoryStore
    GlobalMemoryLoad := addU totals.GlobalMemoryLoad stats.GlobalMemoryLoad
    GlobalMemoryStore := addU totals.GlobalMemoryStore stats.GlobalMemoryStore }

/-- The variable `totals` after the loop of lines 197-221. -/
def computeTotals {n : Nat} (block_stats : Fin n → Option Stats) : Stats :=
  (entries block_stats).foldl (fun totals e => totalsStep totals e.2) Stats.zero

/-- One printed "Block:" line (lines 198-204). -/
structure BlockLine where
  Depth : Nat
  VectorFP : Nat
  VectorInt : Nat
  ScalarFP : Nat
  ScalarInt : Nat
  Latch : String
  deriving DecidableEq, Repr

/-- The "Block:" line printed for the entry `e` of `block_stats`. -/
def blockLine {n m : Nat} (li : LoopInfo n m) (e : Fin n × Stats) : BlockLine :=
  { Depth := li.getLoopDepth e.1
    VectorFP := e.2.ArithOps.VectorFP
    VectorInt := e.2.ArithOps.VectorInt
    ScalarFP := e.2.ArithOps.ScalarFP
    ScalarInt := e.2.ArithOps.ScalarInt
    Latch := if e.2.LatchBranches > 0 then "YES" else "NO" }

/-- One printed " Loop:" line (lines 224-229). -/
structure LoopLine where
  Depth : Nat
  VectorFP : Nat
  VectorInt : Nat
  ScalarFP : Nat
  ScalarInt : Nat
  deriving DecidableEq, Repr

/-- The " Loop:" line printed for the entry `e` of `loop_stats`. -/
def loopLine {n m : Nat} (li : LoopInfo n m) (e : Fin m × Stats) : LoopLine :=
  { Depth := li.loopDepth e.1
    VectorFP := e.2.ArithOps.VectorFP
    VectorInt := e.2.ArithOps.VectorInt
    ScalarFP := e.2.ArithOps.ScalarFP
    ScalarInt := e.2.ArithOps.ScalarInt }

/-- Value of a `double` division `x / y` of two non-negative integers that convert exactly:
`NaN` for `0.0 / 0.0`, `Infinity` for a non-zero numerator over `0.0`, and otherwise the
`double` nearest to the quotient `num / den`. -/
inductive Quotient64
  | NaN
  | Infinity
  | Nearest (num den : Nat)
  deriving DecidableEq, Repr

/-- The expression `(x * 100.0) / (a + b + c + d)` of lines 234-243: the sum is taken in
`unsigned int`, the product and the division in `double`. -/
def percentage (x : Nat) (totals : Stats) : Quotient64 :=
  let den := addU (addU (addU totals.ArithOps.VectorFP totals.ArithOps.VectorInt)
    totals.ArithOps.ScalarFP) totals.ArithOps.ScalarInt
  if den = 0 then
    if x * 100 = 0 then Quotient64.NaN else Quotient64.Infinity
  else Quotient64.Nearest (x * 100) den

/-- The four percentages of the "Total Arith. Ops" line, in printed order. -/
structure ArithPercentages where
  VectorFP : Quotient64
  VectorInt : Quotient64
  ScalarFP : Quotient64
  ScalarInt : Quotient64
  deriving DecidableEq, Repr

/-- The percentages printed by lines 232-244 for the accumulated `totals`. -/
def arithPercentages (totals : Stats) : ArithPercentages :=
  { VectorFP := percentage totals.ArithOps.VectorFP totals
    VectorInt := percentage totals.ArithOps.VectorInt totals
    ScalarFP := percentage totals.ArithOps.ScalarFP totals
    ScalarInt := percentage totals.ArithOps.ScalarInt totals }

/-- Everything `AnalyseFunction` computes and prints. -/
structure Analysis (n m : Nat) where
  seen : Finset (Fin n)
  block_stats : Fin n → Option Stats
  loop_stats : Fin m → Option Stats
  totals : Stats
  blockLines : List BlockLine
  loopLines : List LoopLine
  percentages : ArithPercentages

/-- The part of `AnalyseFunction` after the `while` loop, from the final loop state. -/
def report {n m : Nat} (li : LoopInfo n m) (st : LoopState n) : Analysis n m :=
  let loop_stats := aggregateLoops li st.block_stats
  let totals := computeTotals st.block_stats
  { seen := st.seen
    block_stats := st.block_stats
    loop_stats := loop_stats
    totals := totals
    blockLines := (entries st.block_stats).map (blockLine li)
    loopLines := (entries loop_stats).map (loopLine li)
    percentages := arithPercentages totals }

/-- `AnalyseFunction` with the `while` loop limited to `fuel` iterations. -/
def AnalyseFunctionFuel {n m : Nat} (fuel : Nat) (fn : Function n) (li : LoopInfo n m) :
    Option (Analysis n m) :=
  (whileLoop fn li fuel (initialState fn)).map (report li)

/-- `AnalyseFunction(fn)`, given the loop analysis `li` of `fn`. -/
def AnalyseFunction {n m : Nat} (fn : Function n) (li : LoopInfo n m) : Option (Analysis n m) :=
  AnalyseFunctionFuel fn.fuel fn li

/-! ## Specification vocabulary -/

/-- Block `b` is reachable from the entry block along terminator-successor edges. -/
def Reachable {n : Nat} (fn : Function n) (b : Fin n) : Prop :=
  Relation.ReflTransGen (fun a c => c ∈ fn.successors a) fn.entry b

/-- Block `b` is the designated latch block of its innermost enclosing loop. -/
def isLatch {n m : Nat} (li : LoopInfo n m) (b : Fin n) : Prop :=
  ∃ l, li.getLoopFor b = some l ∧ li.getLoopLatch l = some b

/-! ## A three-block loop: header, body, exit -/

/-- A non-terminator instruction of the given opcode and result type. -/
def plainIns {n : Nat} (op : Opcode) (t : Ty) : Instruction n :=
  { opcode := op, type := t, isConditional := false, successors := [] }

/-- The function of the scenario: block 0 is the header, 1 the body, 2 the exit. -/
def loopFn : Function 3 :=
  { entry := 0
    block := fun b =>
      if b = 0 then
        { body := []
          terminator :=
            { opcode := .Br, type := .Scalar .Void, isConditional := true, successors := [1, 2] } }
      else if b = 1 then
        { body := [plainIns .Add (.Scalar .Integer), plainIns .Add (.Scalar .Integer)]
          terminator :=
            { opcode := .Br, type := .Scalar .Void, isConditional := false, successors := [0] } }
      else
        { body := []
          terminator := plainIns .Ret (.Scalar .Void) } }

/-- Loop analysis of `loopFn`: one loop (loop 0) of depth 1 holding header and body,
whose latch is the body. -/
def loopLi : LoopInfo 3 1 :=
  { getLoopFor := fun b => if b = 2 then none else some 0
    getLoopLatch := fun _ => some 1
    loopDepth := fun _ => 1 }

/-- The twelve arithmetic opcodes that share the first `case` group of the `switch`. -/
def arithmeticOpcodes : List Opcode :=
  [.Add, .FAdd, .Sub, .FSub, .Mul, .FMul, .UDiv, .SDiv, .FDiv, .URem, .SRem, .FRem]

/-- The opcode is one of the twelve arithmetic opcodes or `ShuffleVector`. -/
def isArithOrShuffle (op : Opcode) : Bool :=
  decide (op ∈ arithmeticOpcodes) || decide (op = Opcode.ShuffleVector)

/-- Sum of the four arithmetic counters, as a natural number. -/
def arithSum (s : Stats) : Nat :=
  s.ArithOps.VectorFP + s.ArithOps.VectorInt + s.ArithOps.ScalarFP + s.ArithOps.ScalarInt

/-- Number of instructions of a list whose opcode is arithmetic or `ShuffleVector`. -/
def arithCount {n : Nat} (l : List (Instruction n)) : Nat :=
  l.countP (fun i => isArithOrShuffle i.opcode)

/-- The four arithmetic counters. -/
inductive Bucket
  | VectorFP | VectorInt | ScalarFP | ScalarInt
  deriving DecidableEq, Repr

/-- Increment the counter of one bucket, leaving every other counter as it is. -/
def Bucket.bump : Bucket → Stats → Stats
  | .VectorFP, s => { s with ArithOps := { s.ArithOps with VectorFP := inc s.ArithOps.VectorFP } }
  | .VectorInt, s => { s with ArithOps := { s.ArithOps with VectorInt := inc s.ArithOps.VectorInt } }
  | .ScalarFP, s => { s with ArithOps := { s.ArithOps with ScalarFP := inc s.ArithOps.ScalarFP } }
  | .ScalarInt, s => { s with ArithOps := { s.ArithOps with ScalarInt := inc s.ArithOps.ScalarInt } }

/-- The bucket named by the specification for a result type: vector of floating-point
elements, vector of other elements, scalar floating point, anything else. -/
def bucketOfType : Ty → Bucket
  | .Vector .FloatingPoint => .VectorFP
  | .Vector _ => .VectorInt
  | .Scalar .FloatingPoint => .ScalarFP
  | .Scalar _ => .ScalarInt

/-- The entry of a `std::map` for a key, or zeroed counters when the key has no entry. -/
def statsOf {k : Nat} (table : Fin k → Option Stats) (i : Fin k) : Stats :=
  (table i).getD Stats.zero

/-- A block length at which a 32-bit counter wraps to zero. -/
def WIDE : Nat := 4294967296

/-- A single-block function: `WIDE` scalar integer additions, then a return. -/
def wideFn : Function 1 :=
  { entry := 0
    block := fun _ =>
      { body := List.replicate WIDE (plainIns .Add (.Scalar .Integer))
        terminator := plainIns .Ret (.Scalar .Void) } }

/-- Loop analysis of a function without loops. -/
def noLoops (n : Nat) : LoopInfo n 0 :=
  { getLoopFor := fun _ => none
    getLoopLatch := fun l => l.elim0
    loopDepth := fun _ => 0 }

/-- Half of `WIDE`: two blocks of this length make a 32-bit sum wrap to zero. -/
def HALF : Nat := 2147483648

/-- The three-block loop with `HALF` scalar integer additions in the header and in the body. -/
def wrapFn : Function 3 :=
  { entry := 0
    block := fun b =>
      if b = 0 then
        { body := List.replicate HALF (plainIns .Add (.Scalar .Integer))
          terminator :=
            { opcode := .Br, type := .Scalar .Void, isConditional := true, successors := [1, 2] } }
      else if b = 1 then
        { body := List.replicate HALF (plainIns .Add (.Scalar .Integer))
          terminator :=
            { opcode := .Br, type := .Scalar .Void, isConditional := false, successors := [0] } }
      else
        { body := []
          terminator := plainIns .Ret (.Scalar .Void) } }

/-- A loop-free function without arithmetic: block 0 loads and jumps to block 1, which
stores and returns. -/
def straightFn : Function 2 :=
  { entry := 0
    block := fun b =>
      if b = 0 then
        { body := [plainIns .Load (.Scalar .Integer)]
          terminator :=
            { opcode := .Br, type := .Scalar .Void, isConditional := false, successors := [1] } }
      else
        { body := [plainIns .Store (.Scalar .Void)]
          terminator := plainIns .Ret (.Scalar .Void) } }

/-- The counters `s` with `vfp`, `vint`, `sfp`, `sint` added to the four arithmetic counters
(the four `+=` of lines 188-191). -/
def addArith (s : Stats) (vfp vint sfp sint : Nat) : Stats :=
  { s with
    ArithOps :=
      { VectorFP := addU s.ArithOps.VectorFP vfp
        VectorInt := addU s.ArithOps.VectorInt vint
        ScalarFP := addU s.ArithOps.ScalarFP sfp
        ScalarInt := addU s.ArithOps.ScalarInt sint } }

/-- Sum of one counter over the entries of a list whose block has `l` as innermost loop. -/
def loopSum {n m : Nat} (li : LoopInfo n m) (sel : Stats → Nat) (l : Fin m)
    (es : List (Fin n × Stats)) : Nat :=
  (es.map (fun e => if li.getLoopFor e.1 = some l then sel e.2 else 0)).sum

/-- Number of iterations the `while` loop makes before the queue is empty, when that
happens within `fuel` iterations. -/
def loopIterations {n m : Nat} (fn : Function n) (li : LoopInfo n m) :
    Nat → LoopState n → Option Nat
  | 0, st =>
    match st.block_stack with
    | [] => some 0
    | _ :: _ => none
  | fuel + 1, st =>
    match st.block_stack with
    | [] => some 0
    | current :: rest =>
      (loopIterations fn li fuel (iteration fn li st current rest)).map (fun k => k + 1)

/-- Number of instructions of a list whose opcode is one of `ops`. -/
def opcodeCount {n : Nat} (ops : List Opcode) (l : List (Instruction n)) : Nat :=
  l.countP (fun i => decide (i.opcode ∈ ops))

/-- The twenty opcodes that have a `case` label in the `switch`. -/
def countedOpcodes : List Opcode :=
  arithmeticOpcodes ++
    [.ShuffleVector, .UIToFP, .SIToFP, .FPToUI, .FPToSI, .Br, .Load, .Store]

/-- Sum of all fourteen counters of a `Stats`, as a natural number. -/
def totalSum (s : Stats) : Nat :=
  arithSum s + s.IntToFP + s.FPToInt + s.LatchBranches + s.Branches + s.LatchJumps + s.Jumps +
    s.GlobalMemoryLoad + s.GlobalMemoryStore + s.LocalMemoryLoad + s.LocalMemoryStore

/-- A single-block function: `k` copies of one instruction, then a return. -/
def repeatFn (k : Nat) (ins : Instruction 1) : Function 1 :=
  { entry := 0
    block := fun _ =>
      { body := List.replicate k ins
        terminator := plainIns .Ret (.Scalar .Void) } }

/-- A conditional or unconditional `br` to the given successors. -/
def brIns {n : Nat} (conditional : Bool) (succs : List (Fin n)) : Instruction n :=
  { opcode := .Br, type := .Scalar .Void, isConditional := conditional, successors := succs }

/-- Two nested loops where the latch of the outer loop lies inside the inner loop:
block 0 is the entry, 1 the outer header, 2 the inner header, 3 a block of the inner loop
that branches on to block 4 or back to the outer header, 4 the inner latch, 5 the exit. -/
def nestedFn : Function 6 :=
  { entry := 0
    block := fun b =>
      if b = 0 then { body := [], terminator := brIns false [1] }
      else if b = 1 then { body := [], terminator := brIns true [2, 5] }
      else if b = 2 then { body := [], terminator := brIns false [3] }
      else if b = 3 then { body := [], terminator := brIns true [4, 1] }
      else if b = 4 then { body := [], terminator := brIns false [2] }
      else { body := [], terminator := plainIns .Ret (.Scalar .Void) } }

/-- Loop analysis of `nestedFn`: loop 0 is the outer loop (blocks 1-4, header 1, latch 3,
depth 1), loop 1 the inner loop (blocks 2-4, header 2, latch 4, depth 2). -/
def nestedLi : LoopInfo 6 2 :=
  { getLoopFor := fun b =>
      if b = 1 then some 0
      else if b = 2 ∨ b = 3 ∨ b = 4 then some 1
      else none
    getLoopLatch := fun l => if l = 0 then some 3 else some 4
    loopDepth := fun l => if l = 0 then 1 else 2 }

/-- The two functions have the same entry and, block by block, the same instructions, except
that the successor list of a terminator may be in another order. -/
def SameUpToSuccessorOrder {n : Nat} (fn fn' : Function n) : Prop :=
  fn'.entry = fn.entry ∧
    ∀ b, (fn'.block b).body = (fn.block b).body ∧
      (fn'.block b).terminator.opcode = (fn.block b).terminator.opcode ∧
      (fn'.block b).terminator.type = (fn.block b).terminator.type ∧
      (fn'.block b).terminator.isConditional = (fn.block b).terminator.isConditional ∧
      List.Perm (fn'.block b).terminator.successors (fn.block b).terminator.successors

/-- The three-block loop `loopFn` with the two successors of the header exchanged. -/
def loopFnSwapped : Function 3 :=
  { entry := 0
    block := fun b =>
      if b = 0 then { body := [], terminator := brIns true [2, 1] }
      else if b = 1 then
        { body := [plainIns .Add (.Scalar .Integer), plainIns .Add (.Scalar .Integer)]
          terminator := brIns false [0] }
      else { body := [], terminator := plainIns .Ret (.Scalar .Void) } }

/-- A loop of one block: block 0 is the entry, block 1 branches back to itself or on to the
exit, block 2. -/
def doWhileFn : Function 3 :=
  { entry := 0
    block := fun b =>
      if b = 0 then { body := [], terminator := brIns false [1] }
      else if b = 1 then
        { body := [plainIns .FMul (.Vector .FloatingPoint)], terminator := brIns true [1, 2] }
      else { body := [], terminator := plainIns .Ret (.Scalar .Void) } }

/-- Loop analysis of `doWhileFn`: one loop of depth 1 whose header and latch are block 1. -/
def doWhileLi : LoopInfo 3 1 :=
  { getLoopFor := fun b => if b = 1 then some 0 else none
    getLoopLatch := fun _ => some 1
    loopDepth := fun _ => 1 }

/-- For the counter `sel`: when the sum of the counter over the visited blocks fits in an
`unsigned int`, the sum of the counter over the entries of `loop_stats` plus its sum over
the visited blocks without an enclosing loop is the total, so the per-loop sum does not
exceed the total. -/
def LoopsAndFreeBlocksPartition {n m : Nat} (li : LoopInfo n m) (a : Analysis n m)
    (sel : Stats → Nat) : Prop :=
  ∑ b in a.seen, sel (statsOf a.block_stats b) < UINT_RANGE →
    ((entries a.loop_stats).map (fun e => sel e.2)).sum +
        ∑ b in a.seen.filter (fun b => li.getLoopFor b = none), sel (statsOf a.block_stats b) =
      sel a.totals ∧
    ((entries a.loop_stats).map (fun e => sel e.2)).sum ≤ sel a.totals

/-- Number of conditional `Br` instructions of a list. -/
def condBrCount {n : Nat} (l : List (Instruction n)) : Nat :=
  l.countP (fun i => decide (i.opcode = Opcode.Br) && i.isConditional)

/-- Number of unconditional `Br` instructions of a list. -/
def jumpCount {n : Nat} (l : List (Instruction n)) : Nat :=
  l.countP (fun i => decide (i.opcode = Opcode.Br) && !i.isConditional)

/-- The typing rule of LLVM that the classification relies on: the result of a
`shufflevector` is a vector (`ShuffleVectorInst` builds its type with `VectorType::get`). -/
def Instruction.WellTyped {n : Nat} (ins : Instruction n) : Prop :=
  ins.opcode = Opcode.ShuffleVector → ins.type.isVectorTy = true

/-! ## Proof vocabulary for the traversal -/

/-- Iterations the loop can still make: queued blocks plus the successor edges of the
blocks not yet seen. -/
def potential {n : Nat} (fn : Function n) (st : LoopState n) : Nat :=
  st.block_stack.length + ∑ b in st.seenᶜ, (fn.successors b).length

/-- Invariant of the `while` loop. -/
structure Inv {n m : Nat} (fn : Function n) (li : LoopInfo n m) (st : LoopState n) : Prop where
  seen_reach : ∀ b ∈ st.seen, Reachable fn b
  stack_reach : ∀ b ∈ st.block_stack, Reachable fn b
  entry : fn.entry ∈ st.seen ∨ fn.entry ∈ st.block_stack
  closed : ∀ b ∈ st.seen, ∀ s ∈ fn.successors b, s ∈ st.seen ∨ s ∈ st.block_stack
  stats_seen : ∀ b ∈ st.seen, st.block_stats b = some (classifyBlock fn li b Stats.zero)
  stats_unseen : ∀ b, b ∉ st.seen → st.block_stats b = none

/-! ## Traversal: invariant and termination -/

theorem inv_initialState {n m : Nat} (fn : Function n) (li : LoopInfo n m) :
    Inv fn li (initialState fn) := by
  refine ⟨?_, ?_, ?_, ?_, ?_, ?_⟩ <;> simp [initialState, Reachable]
  exact Relation.ReflTransGen.refl

theorem potential_initialState {n : Nat} (fn : Function n) :
    potential fn (initialState fn) = fn.fuel := by
  simp [potential, initialState, Function.fuel, Fin.sum_univ_def, Nat.add_comm]

theorem inv_iteration {n m : Nat} (fn : Function n) (li : LoopInfo n m) (st : LoopState n)
    (current : Fin n) (rest : List (Fin n)) (hq : st.block_stack = current :: rest)
    (h : Inv fn li st) : Inv fn li (iteration fn li st current rest) := by
  have hcur : Reachable fn current := h.stack_reach current (by simp [hq])
  by_cases hs : current ∈ st.seen
  · simp only [iteration, hs, if_true]
    refine ⟨h.seen_reach, ?_, ?_, ?_, h.stats_seen, h.stats_unseen⟩
    · intro b hb
      exact h.stack_reach b (by simp [hq, hb])
    · rcases h.entry with he | he
      · exact Or.inl he
      · rw [hq, List.mem_cons] at he
        rcases he with he | he
        · exact Or.inl (he ▸ hs)
        · exact Or.inr he
    · intro b hb s hsb
      rcases h.closed b hb s hsb with h1 | h1
      · exact Or.inl h1
      · rw [hq, List.mem_cons] at h1
        rcases h1 with h1 | h1
        · exact Or.inl (h1 ▸ hs)
        · exact Or.inr h1
  · simp only [iteration, hs, if_false]
    refine ⟨?_, ?_, ?_, ?_, ?_, ?_⟩
    · intro b hb
      rcases Finset.mem_insert.mp hb with hb | hb
      · exact hb ▸ hcur
      · exact h.seen_reach b hb
    · intro b hb
      rcases List.mem_append.mp hb with hb | hb
      · exact h.stack_reach b (by simp [hq, hb])
      · exact Relation.ReflTransGen.tail hcur hb
    · rcases h.entry with he | he
      · exact Or.inl (Finset.mem_insert_of_mem he)
      · rw [hq, List.mem_cons] at he
        rcases he with he | he
        · exact Or.inl (he ▸ Finset.mem_insert_self _ _)
        · exact Or.inr (List.mem_append_left _ he)
    · intro b hb s hsb
      rcases Finset.mem_insert.mp hb with hb | hb
      · subst hb
        exact Or.inr (List.mem_append_right _ hsb)
      · rcases h.closed b hb s hsb with h1 | h1
        · exact Or.inl (Finset.mem_insert_of_mem h1)
        · rw [hq, List.mem_cons] at h1
          rcases h1 with h1 | h1
          · exact Or.inl (h1 ▸ Finset.mem_insert_self _ _)
          · exact Or.inr (List.mem_append_left _ h1)
    · intro b hb
      rcases Finset.mem_insert.mp hb with hb | hb
      · subst hb
        simp [h.stats_unseen b hs]
      · have hne : b ≠ current := fun e => hs (e ▸ hb)
        simp [Function.update_noteq hne, h.stats_seen b hb]
    · intro b hb
      have hne : b ≠ current := fun e => hb (e ▸ Finset.mem_insert_self _ _)
      have hb2 : b ∉ st.seen := fun e => hb (Finset.mem_insert_of_mem e)
      simp [Function.update_noteq hne, h.stats_unseen b hb2]

theorem potential_iteration {n m : Nat} (fn : Function n) (li : LoopInfo n m) (st : LoopState n)
    (current : Fin n) (rest : List (Fin n)) (hq : st.block_stack = current :: rest) :
    potential fn (iteration fn li st current rest) + 1 = potential fn st := by
  by_cases hs : current ∈ st.seen
  · simp only [iteration, hs, if_true, potential, hq, List.length_cons]
    omega
  · have hc : current ∈ st.seenᶜ := Finset.mem_compl.mpr hs
    have hsum := Finset.add_sum_erase st.seenᶜ (fun b => (fn.successors b).length) hc
    simp only [] at hsum
    simp only [iteration, hs, if_false, potential, hq, List.length_append, List.length_cons,
      Finset.compl_insert]
    omega

theorem whileLoop_terminates {n m : Nat} (fn : Function n) (li : LoopInfo n m) :
    ∀ (fuel : Nat) (st : LoopState n), Inv fn li st → potential fn st ≤ fuel →
      ∃ st', whileLoop fn li fuel st = some st' ∧ st'.block_stack = [] ∧ Inv fn li st' := by
  intro fuel
  induction fuel with
  | zero =>
    intro st hinv hpot
    cases hq : st.block_stack with
    | nil => exact ⟨st, by simp [whileLoop, hq], hq, hinv⟩
    | cons current rest => simp [potential, hq] at hpot
  | succ fuel ih =>
    intro st hinv hpot
    cases hq : st.block_stack with
    | nil => exact ⟨st, by simp [whileLoop, hq], hq, hinv⟩
    | cons current rest =>
      have hp := potential_iteration fn li st current rest hq
      obtain ⟨st', h1, h2, h3⟩ := ih (iteration fn li st current rest)
        (inv_iteration fn li st current rest hq hinv) (by omega)
      exact ⟨st', by simp [whileLoop, hq, h1], h2, h3⟩

theorem inv_final_seen {n m : Nat} (fn : Function n) (li : LoopInfo n m) (st : LoopState n)
    (hinv : Inv fn li st) (hq : st.block_stack = []) (b : Fin n) :
    b ∈ st.seen ↔ Reachable fn b := by
  constructor
  · exact hinv.seen_reach b
  · intro hb
    induction hb with
    | refl =>
      rcases hinv.entry with he | he
      · exact he
      · simp [hq] at he
    | tail _ hstep ih =>
      rcases hinv.closed _ ih _ hstep with h1 | h1
      · exact h1
      · simp [hq] at h1

theorem visitTrace_fresh {n m : Nat} (fn : Function n) (li : LoopInfo n m) :
    ∀ (fuel : Nat) (st : LoopState n),
      (visitTrace fn li fuel st).Nodup ∧ ∀ b ∈ visitTrace fn li fuel st, b ∉ st.seen := by
  intro fuel
  induction fuel with
  | zero => intro st; simp [visitTrace]
  | succ fuel ih =>
    intro st
    cases hq : st.block_stack with
    | nil => simp [visitTrace, hq]
    | cons current rest =>
      have h := ih (iteration fn li st current rest)
      by_cases hs : current ∈ st.seen
      · simp only [visitTrace, hq, hs, if_true]
        have hseen : (iteration fn li st current rest).seen = st.seen := by
          simp [iteration, hs]
        rw [hseen] at h
        exact h
      · simp only [visitTrace, hq, hs, if_false]
        have hseen : (iteration fn li st current rest).seen = insert current st.seen := by
          simp [iteration, hs]
        rw [hseen] at h
        refine ⟨List.nodup_cons.mpr ⟨?_, h.1⟩, ?_⟩
        · intro hc
          exact h.2 current hc (Finset.mem_insert_self _ _)
        · intro b hb
          rcases List.mem_cons.mp hb with rfl | hb
          · exact hs
          · exact fun hbs => h.2 b hb (Finset.mem_insert_of_mem hbs)

theorem visitTrace_seen {n m : Nat} (fn : Function n) (li : LoopInfo n m) :
    ∀ (fuel : Nat) (st st' : LoopState n), whileLoop fn li fuel st = some st' →
      ∀ b, b ∈ st'.seen ↔ b ∈ st.seen ∨ b ∈ visitTrace fn li fuel st := by
  intro fuel
  induction fuel with
  | zero =>
    intro st st' h b
    cases hq : st.block_stack with
    | nil =>
      simp only [whileLoop, hq, Option.some.injEq] at h
      subst h
      simp [visitTrace]
    | cons current rest => simp [whileLoop, hq] at h
  | succ fuel ih =>
    intro st st' h b
    cases hq : st.block_stack with
    | nil =>
      simp only [whileLoop, hq, Option.some.injEq] at h
      subst h
      simp [visitTrace, hq]
    | cons current rest =>
      simp only [whileLoop, hq] at h
      have hi := ih (iteration fn li st current rest) st' h b
      by_cases hs : current ∈ st.seen
      · simp only [visitTrace, hq, hs, if_true]
        have hseen : (iteration fn li st current rest).seen = st.seen := by
          simp [iteration, hs]
        rw [hseen] at hi
        exact hi
      · simp only [visitTrace, hq, hs, if_false]
        have hseen : (iteration fn li st current rest).seen = insert current st.seen := by
          simp [iteration, hs]
        rw [hseen, Finset.mem_insert] at hi
        rw [hi, List.mem_cons]
        tauto

/-- The traversal finishes within `fn.fuel` iterations, having seen exactly the reachable
blocks and classified each of them once, starting from zeroed counters. -/
theorem traversal_spec {n m : Nat} (fn : Function n) (li : LoopInfo n m) :
    ∃ st, whileLoop fn li fn.fuel (initialState fn) = some st ∧
      st.block_stack = [] ∧
      (∀ b, b ∈ st.seen ↔ Reachable fn b) ∧
      (∀ b ∈ st.seen, st.block_stats b = some (classifyBlock fn li b Stats.zero)) ∧
      (∀ b, b ∉ st.seen → st.block_stats b = none) := by
  obtain ⟨st, h1, h2, h3⟩ := whileLoop_terminates fn li fn.fuel (initialState fn)
    (inv_initialState fn li) (le_of_eq (potential_initialState fn))
  exact ⟨st, h1, h2, inv_final_seen fn li st h3 h2, h3.stats_seen, h3.stats_unseen⟩

/-! ## Classification of one instruction -/

theorem AnalyseFunction_spec {n m : Nat} (fn : Function n) (li : LoopInfo n m) :
    ∃ st, AnalyseFunction fn li = some (report li st) ∧
      (∀ b, b ∈ st.seen ↔ Reachable fn b) ∧
      (∀ b ∈ st.seen, st.block_stats b = some (classifyBlock fn li b Stats.zero)) ∧
      (∀ b, b ∉ st.seen → st.block_stats b = none) := by
  obtain ⟨st, h1, _, h3, h4, h5⟩ := traversal_spec fn li
  exact ⟨st, by simp [AnalyseFunction, AnalyseFunctionFuel, h1], h3, h4, h5⟩

theorem block_stats_of_some {n m : Nat} (fn : Function n) (li : LoopInfo n m) (st : LoopState n)
    (h4 : ∀ b ∈ st.seen, st.block_stats b = some (classifyBlock fn li b Stats.zero))
    (h5 : ∀ b, b ∉ st.seen → st.block_stats b = none) (b : Fin n) (s : Stats)
    (hs : st.block_stats b = some s) :
    b ∈ st.seen ∧ s = classifyBlock fn li b Stats.zero := by
  by_cases hb : b ∈ st.seen
  · rw [h4 b hb] at hs
    exact ⟨hb, (Option.some.inj hs).symm⟩
  · rw [h5 b hb] at hs
    cases hs

theorem classify_arith {n m : Nat} (li : LoopInfo n m) (loop : Option (Fin m)) (current : Fin n)
    (stats : Stats) (ins : Instruction n) (h : ins.opcode ∈ arithmeticOpcodes) :
    classify li loop current stats ins = (bucketOfType ins.type).bump stats := by
  have hc : classify li loop current stats ins = countArith stats ins.type := by
    simp only [arithmeticOpcodes, List.mem_cons, List.mem_singleton, List.not_mem_nil,
      or_false] at h
    rcases h with h | h | h | h | h | h | h | h | h | h | h | h <;> simp [classify, h]
  rw [hc]
  rcases ht : ins.type with t | t <;> cases t <;> rfl

theorem classify_shuffle {n m : Nat} (li : LoopInfo n m) (loop : Option (Fin m))
    (current : Fin n) (stats : Stats) (ins : Instruction n)
    (h : ins.opcode = Opcode.ShuffleVector) :
    classify li loop current stats ins =
      (if ins.type.isFPOrFPVectorTy then Bucket.VectorFP else Bucket.VectorInt).bump stats := by
  have hc : classify li loop current stats ins = countShuffle stats ins.type := by
    simp [classify, h]
  rw [hc]
  rcases ht : ins.type with t | t <;> cases t <;> rfl

theorem classify_bump {n m : Nat} (li : LoopInfo n m) (loop : Option (Fin m)) (current : Fin n)
    (stats : Stats) (ins : Instruction n) (h : isArithOrShuffle ins.opcode = true) :
    ∃ k : Bucket, classify li loop current stats ins = k.bump stats := by
  simp only [isArithOrShuffle, Bool.or_eq_true, decide_eq_true_eq] at h
  rcases h with h | h
  · exact ⟨_, classify_arith li loop current stats ins h⟩
  · exact ⟨_, classify_shuffle li loop current stats ins h⟩

theorem classify_frame {n m : Nat} (li : LoopInfo n m) (loop : Option (Fin m)) (current : Fin n)
    (stats : Stats) (ins : Instruction n) (h : isArithOrShuffle ins.opcode = false) :
    (classify li loop current stats ins).ArithOps = stats.ArithOps := by
  rcases ins with ⟨op, t, c, ss⟩
  cases op <;> first
    | rfl
    | (simp only [classify, countBr]; split_ifs <;> rfl)
    | (simp [isArithOrShuffle, arithmeticOpcodes] at h)

theorem arithSum_bump_mod (k : Bucket) (s : Stats) :
    arithSum (k.bump s) % UINT_RANGE = (arithSum s + 1) % UINT_RANGE := by
  cases k <;> simp only [Bucket.bump, arithSum, inc, UINT_RANGE] <;> omega

theorem arithSum_bump_exact (k : Bucket) (s : Stats) (h : arithSum s + 1 < UINT_RANGE) :
    arithSum (k.bump s) = arithSum s + 1 := by
  cases k <;> simp only [Bucket.bump, arithSum, inc, UINT_RANGE] at h ⊢ <;> omega

theorem arithSum_foldl_mod {n m : Nat} (li : LoopInfo n m) (loop : Option (Fin m))
    (current : Fin n) (l : List (Instruction n)) :
    ∀ s : Stats, arithSum (l.foldl (classify li loop current) s) % UINT_RANGE =
      (arithSum s + arithCount l) % UINT_RANGE := by
  induction l with
  | nil => intro s; simp [arithCount]
  | cons i l ih =>
    intro s
    rw [List.foldl_cons, ih]
    cases hi : isArithOrShuffle i.opcode with
    | true =>
      obtain ⟨k, hk⟩ := classify_bump li loop current s i hi
      have h1 := arithSum_bump_mod k s
      have h2 : arithCount (i :: l) = arithCount l + 1 := by
        simp [arithCount, List.countP_cons, hi]
      rw [hk, h2]
      simp only [UINT_RANGE] at h1 ⊢
      omega
    | false =>
      have h1 : arithSum (classify li loop current s i) = arithSum s := by
        simp only [arithSum, classify_frame li loop current s i hi]
      have h2 : arithCount (i :: l) = arithCount l := by
        simp [arithCount, List.countP_cons, hi]
      rw [h1, h2]

theorem arithSum_foldl_exact {n m : Nat} (li : LoopInfo n m) (loop : Option (Fin m))
    (current : Fin n) (l : List (Instruction n)) :
    ∀ s : Stats, arithSum s + arithCount l < UINT_RANGE →
      arithSum (l.foldl (classify li loop current) s) = arithSum s + arithCount l := by
  induction l with
  | nil => intro s _; simp [arithCount]
  | cons i l ih =>
    intro s hlt
    rw [List.foldl_cons]
    cases hi : isArithOrShuffle i.opcode with
    | true =>
      obtain ⟨k, hk⟩ := classify_bump li loop current s i hi
      have h2 : arithCount (i :: l) = arithCount l + 1 := by
        simp [arithCount, List.countP_cons, hi]
      rw [h2] at hlt ⊢
      have h1 := arithSum_bump_exact k s (by omega)
      rw [hk, ih _ (by omega), h1]
      omega
    | false =>
      have h1 : arithSum (classify li loop current s i) = arithSum s := by
        simp only [arithSum, classify_frame li loop current s i hi]
      have h2 : arithCount (i :: l) = arithCount l := by
        simp [arithCount, List.countP_cons, hi]
      rw [h2] at hlt ⊢
      rw [ih _ (by omega), h1]

/-! ## Entries of a map -/

theorem mem_entries {k : Nat} (table : Fin k → Option Stats) (e : Fin k × Stats) :
    e ∈ entries table ↔ table e.1 = some e.2 := by
  rcases e with ⟨i, s⟩
  simp only [entries, List.mem_filterMap, List.mem_finRange, true_and, Option.map_eq_some']
  constructor
  · rintro ⟨j, t, h1, h2⟩
    cases h2
    exact h1
  · intro h
    exact ⟨i, s, h, rfl⟩

theorem sum_filterMap_map {α β : Type} (f : α → Option β) (g : β → Nat) (l : List α) :
    ((l.filterMap f).map g).sum =
      (l.map (fun i => match f i with | some x => g x | none => 0)).sum := by
  induction l with
  | nil => rfl
  | cons a l ih =>
    cases h : f a with
    | none => simp [List.filterMap_cons, h, ih]
    | some x => simp [List.filterMap_cons, h, ih]

theorem sum_entries {k : Nat} (table : Fin k → Option Stats) (g : Fin k × Stats → Nat) :
    ((entries table).map g).sum =
      ∑ i : Fin k, (match table i with | some s => g (i, s) | none => 0) := by
  rw [entries, sum_filterMap_map, Fin.sum_univ_def]
  congr 1
  apply List.map_congr_left
  intro i _
  cases table i <;> rfl

theorem sum_entries_seen {k : Nat} (table : Fin k → Option Stats) (seen : Finset (Fin k))
    (hunseen : ∀ b, b ∉ seen → table b = none) (g : Fin k × Stats → Nat) :
    ((entries table).map g).sum =
      ∑ i in seen, (match table i with | some s => g (i, s) | none => 0) := by
  rw [sum_entries]
  symm
  apply Finset.sum_subset (Finset.subset_univ seen)
  intro i _ hi
  rw [hunseen i hi]

theorem entries_keys {k : Nat} (table : Fin k → Option Stats) :
    (entries table).map Prod.fst = (List.finRange k).filter (fun i => (table i).isSome) := by
  unfold entries
  induction List.finRange k with
  | nil => rfl
  | cons a l ih =>
    cases h : table a with
    | none => simp [List.filterMap_cons, List.filter_cons, h, ih]
    | some x => simp [List.filterMap_cons, List.filter_cons, h, ih]

theorem count_entries_keys {k : Nat} (table : Fin k → Option Stats) (i : Fin k)
    (h : (table i).isSome = true) : ((entries table).map Prod.fst).count i = 1 := by
  rw [entries_keys]
  apply List.count_eq_one_of_mem
  · exact (List.nodup_finRange k).filter _
  · simp [List.mem_filter, List.mem_finRange, h]

/-! ## Aggregation into loops -/

theorem addU_addU (x a b : Nat) : addU (addU x a) b = addU x (a + b) := by
  simp only [addU, UINT_RANGE]
  omega

theorem addArith_addArith (s : Stats) (a b c d a' b' c' d' : Nat) :
    addArith (addArith s a b c d) a' b' c' d' = addArith s (a + a') (b + b') (c + c') (d + d') := by
  simp [addArith, addU_addU]

theorem aggregateStep_same {n m : Nat} (li : LoopInfo n m) (table : Fin m → Option Stats)
    (e : Fin n × Stats) (l : Fin m) (h : li.getLoopFor e.1 = some l) :
    aggregateStep li table e l =
      some (addArith (statsOf table l) e.2.ArithOps.VectorFP e.2.ArithOps.VectorInt
        e.2.ArithOps.ScalarFP e.2.ArithOps.ScalarInt) := by
  simp [aggregateStep, h, addArith, statsOf]

theorem aggregateStep_other {n m : Nat} (li : LoopInfo n m) (table : Fin m → Option Stats)
    (e : Fin n × Stats) (l : Fin m) (h : li.getLoopFor e.1 ≠ some l) :
    aggregateStep li table e l = table l := by
  unfold aggregateStep
  cases hl : li.getLoopFor e.1 with
  | none => rfl
  | some l' =>
    have hne : l ≠ l' := fun e' => h (by rw [hl, e'])
    simp [Function.update_noteq hne]

theorem aggregate_foldl {n m : Nat} (li : LoopInfo n m) (l : Fin m) (es : List (Fin n × Stats)) :
    ∀ table : Fin m → Option Stats,
      (es.foldl (aggregateStep li) table) l =
        if es.any (fun e => decide (li.getLoopFor e.1 = some l)) then
          some (addArith (statsOf table l)
            (loopSum li (fun s => s.ArithOps.VectorFP) l es)
            (loopSum li (fun s => s.ArithOps.VectorInt) l es)
            (loopSum li (fun s => s.ArithOps.ScalarFP) l es)
            (loopSum li (fun s => s.ArithOps.ScalarInt) l es))
        else table l := by
  induction es with
  | nil => intro table; simp
  | cons e es ih =>
    intro table
    rw [List.foldl_cons, ih]
    by_cases he : li.getLoopFor e.1 = some l
    · have h1 := aggregateStep_same li table e l he
      by_cases hany : es.any (fun e => decide (li.getLoopFor e.1 = some l)) = true
      · simp only [hany, if_true, List.any_cons, he, decide_True, Bool.true_or, statsOf, h1,
          Option.getD_some, loopSum, List.map_cons, List.sum_cons, addArith_addArith]
      · have hzero : ∀ sel : Stats → Nat, loopSum li sel l es = 0 := by
          intro sel
          simp only [loopSum]
          apply List.sum_eq_zero
          intro x hx
          obtain ⟨e', he', rfl⟩ := List.mem_map.mp hx
          have : li.getLoopFor e'.1 ≠ some l := by
            intro hc
            apply hany
            exact List.any_eq_true.mpr ⟨e', he', by simp [hc]⟩
          simp [this]
        have hsplit : ∀ sel : Stats → Nat, loopSum li sel l (e :: es) = sel e.2 := by
          intro sel
          have := hzero sel
          simp only [loopSum] at this
          simp [loopSum, he, this]
        simp only [hany, List.any_cons, he, decide_True, Bool.true_or, if_true, hsplit, h1]
        simp
    · have h1 := aggregateStep_other li table e l he
      have hsplit : ∀ sel : Stats → Nat, loopSum li sel l (e :: es) = loopSum li sel l es := by
        intro sel
        simp [loopSum, he]
      simp only [List.any_cons, he, decide_False, Bool.false_or, hsplit, h1, statsOf]

theorem any_entries {n m : Nat} (li : LoopInfo n m) (table : Fin n → Option Stats) (l : Fin m) :
    (entries table).any (fun e => decide (li.getLoopFor e.1 = some l)) = true ↔
      ∃ b, (table b).isSome = true ∧ li.getLoopFor b = some l := by
  rw [List.any_eq_true]
  constructor
  · rintro ⟨e, he, h⟩
    refine ⟨e.1, ?_, by simpa using h⟩
    rw [(mem_entries table e).mp he]
    rfl
  · rintro ⟨b, hb, h⟩
    obtain ⟨s, hs⟩ := Option.isSome_iff_exists.mp hb
    exact ⟨(b, s), (mem_entries table (b, s)).mpr hs, by simpa using h⟩

theorem loopSum_entries {n m : Nat} (li : LoopInfo n m) (table : Fin n → Option Stats)
    (seen : Finset (Fin n)) (hseen : ∀ b ∈ seen, (table b).isSome = true)
    (hunseen : ∀ b, b ∉ seen → table b = none) (sel : Stats → Nat) (l : Fin m) :
    loopSum li sel l (entries table) =
      ∑ b in seen.filter (fun b => li.getLoopFor b = some l), sel (statsOf table b) := by
  rw [loopSum, sum_entries_seen table seen hunseen, Finset.sum_filter]
  apply Finset.sum_congr rfl
  intro b hb
  cases h : table b with
  | none =>
    have := hseen b hb
    rw [h] at this
    cases this
  | some s => simp [statsOf, h]

theorem selSum_entries {n : Nat} (table : Fin n → Option Stats)
    (seen : Finset (Fin n)) (hseen : ∀ b ∈ seen, (table b).isSome = true)
    (hunseen : ∀ b, b ∉ seen → table b = none) (sel : Stats → Nat) :
    ((entries table).map (fun e => sel e.2)).sum = ∑ b in seen, sel (statsOf table b) := by
  rw [sum_entries_seen table seen hunseen]
  apply Finset.sum_congr rfl
  intro b hb
  cases h : table b with
  | none =>
    have := hseen b hb
    rw [h] at this
    cases this
  | some s => simp [statsOf, h]

/-! ## Totals -/

theorem totals_foldl {n : Nat} (sel : Stats → Nat)
    (hsel : ∀ t s, sel (totalsStep t s) = addU (sel t) (sel s)) :
    ∀ (es : List (Fin n × Stats)) (t0 : Stats), sel t0 < UINT_RANGE →
      sel (es.foldl (fun totals e => totalsStep totals e.2) t0) =
        (sel t0 + (es.map (fun e => sel e.2)).sum) % UINT_RANGE := by
  intro es
  induction es with
  | nil =>
    intro t0 h0
    simp [Nat.mod_eq_of_lt h0]
  | cons e es ih =>
    intro t0 _
    have hlt : sel (totalsStep t0 e.2) < UINT_RANGE := by
      rw [hsel]
      exact Nat.mod_lt _ (by decide)
    rw [List.foldl_cons, ih _ hlt, hsel]
    simp only [addU, UINT_RANGE, List.map_cons, List.sum_cons]
    omega

theorem computeTotals_sel {n : Nat} (table : Fin n → Option Stats)
    (seen : Finset (Fin n)) (hseen : ∀ b ∈ seen, (table b).isSome = true)
    (hunseen : ∀ b, b ∉ seen → table b = none) (sel : Stats → Nat)
    (hsel : ∀ t s, sel (totalsStep t s) = addU (sel t) (sel s)) (h0 : sel Stats.zero = 0) :
    sel (computeTotals table) = (∑ b in seen, sel (statsOf table b)) % UINT_RANGE := by
  have hz : sel Stats.zero < UINT_RANGE := by
    rw [h0]
    decide
  rw [computeTotals, totals_foldl sel hsel _ _ hz, h0, Nat.zero_add,
    selSum_entries table seen hseen hunseen]

/-! ## Latch test and branch counters -/

theorem latchTest_iff {n m : Nat} (li : LoopInfo n m) (b : Fin n) :
    latchTest li (li.getLoopFor b) b = true ↔ isLatch li b := by
  unfold latchTest isLatch
  cases h : li.getLoopFor b with
  | none => simp
  | some l => simp

theorem classify_br {n m : Nat} (li : LoopInfo n m) (loop : Option (Fin m)) (current : Fin n)
    (stats : Stats) (ins : Instruction n) (h : ins.opcode = Opcode.Br) :
    classify li loop current stats ins = countBr li loop current stats ins.isConditional := by
  simp [classify, h]

theorem classify_latch_counters {n m : Nat} (li : LoopInfo n m) (loop : Option (Fin m))
    (current : Fin n) (stats : Stats) (ins : Instruction n)
    (h : latchTest li loop current = false) :
    (classify li loop current stats ins).LatchBranches = stats.LatchBranches ∧
      (classify li loop current stats ins).LatchJumps = stats.LatchJumps := by
  rcases ins with ⟨op, t, c, ss⟩
  cases op <;> first
    | exact ⟨rfl, rfl⟩
    | (simp only [classify, countArith]; split_ifs <;> exact ⟨rfl, rfl⟩)
    | (simp only [classify, countShuffle]; split_ifs <;> exact ⟨rfl, rfl⟩)
    | (simp only [classify, countBr, h]; cases c <;> exact ⟨rfl, rfl⟩)

theorem classify_ordinary_counters {n m : Nat} (li : LoopInfo n m) (loop : Option (Fin m))
    (current : Fin n) (stats : Stats) (ins : Instruction n)
    (h : latchTest li loop current = true) :
    (classify li loop current stats ins).Branches = stats.Branches ∧
      (classify li loop current stats ins).Jumps = stats.Jumps := by
  rcases ins with ⟨op, t, c, ss⟩
  cases op <;> first
    | exact ⟨rfl, rfl⟩
    | (simp only [classify, countArith]; split_ifs <;> exact ⟨rfl, rfl⟩)
    | (simp only [classify, countShuffle]; split_ifs <;> exact ⟨rfl, rfl⟩)
    | (simp only [classify, countBr, h]; cases c <;> exact ⟨rfl, rfl⟩)

theorem foldl_latch_counters {n m : Nat} (li : LoopInfo n m) (loop : Option (Fin m))
    (current : Fin n) (h : latchTest li loop current = false) (l : List (Instruction n)) :
    ∀ s : Stats, (l.foldl (classify li loop current) s).LatchBranches = s.LatchBranches ∧
      (l.foldl (classify li loop current) s).LatchJumps = s.LatchJumps := by
  induction l with
  | nil => intro s; exact ⟨rfl, rfl⟩
  | cons i l ih =>
    intro s
    have h1 := classify_latch_counters li loop current s i h
    have h2 := ih (classify li loop current s i)
    rw [List.foldl_cons]
    exact ⟨h2.1.trans h1.1, h2.2.trans h1.2⟩

theorem foldl_ordinary_counters {n m : Nat} (li : LoopInfo n m) (loop : Option (Fin m))
    (current : Fin n) (h : latchTest li loop current = true) (l : List (Instruction n)) :
    ∀ s : Stats, (l.foldl (classify li loop current) s).Branches = s.Branches ∧
      (l.foldl (classify li loop current) s).Jumps = s.Jumps := by
  induction l with
  | nil => intro s; exact ⟨rfl, rfl⟩
  | cons i l ih =>
    intro s
    have h1 := classify_ordinary_counters li loop current s i h
    have h2 := ih (classify li loop current s i)
    rw [List.foldl_cons]
    exact ⟨h2.1.trans h1.1, h2.2.trans h1.2⟩

/-! ## Blocks that make a 32-bit counter wrap -/

theorem foldl_replicate_add {n m : Nat} (li : LoopInfo n m) (loop : Option (Fin m))
    (current : Fin n) :
    ∀ (k : Nat) (s : Stats), s.ArithOps.ScalarInt < UINT_RANGE →
      (List.replicate k (plainIns .Add (.Scalar .Integer))).foldl (classify li loop current) s =
        { s with ArithOps :=
            { s.ArithOps with ScalarInt := (s.ArithOps.ScalarInt + k) % UINT_RANGE } } := by
  intro k
  induction k with
  | zero =>
    intro s hs
    simp [Nat.mod_eq_of_lt hs]
  | succ k ih =>
    intro s _
    have hstep : classify li loop current s (plainIns .Add (.Scalar .Integer)) =
        { s with ArithOps := { s.ArithOps with ScalarInt := inc s.ArithOps.ScalarInt } } := rfl
    have hlt : inc s.ArithOps.ScalarInt < UINT_RANGE := Nat.mod_lt _ (by decide)
    rw [List.replicate_succ, List.foldl_cons, hstep, ih _ hlt]
    simp only [inc, UINT_RANGE]
    congr 2
    omega

theorem arithCount_replicate_add {n : Nat} (k : Nat) (tail : List (Instruction n))
    (h : arithCount tail = 0) :
    arithCount (List.replicate k (plainIns .Add (.Scalar .Integer)) ++ tail) = k := by
  induction k with
  | zero => simpa using h
  | succ k ih =>
    rw [List.replicate_succ, List.cons_append]
    unfold arithCount at ih h ⊢
    rw [List.countP_cons, ih]
    rfl

/-! ## Loop statistics and totals of the whole analysis -/

theorem loop_stats_spec {n m : Nat} (li : LoopInfo n m) (st : LoopState n)
    (hseen : ∀ b ∈ st.seen, (st.block_stats b).isSome = true)
    (hunseen : ∀ b, b ∉ st.seen → st.block_stats b = none) (l : Fin m) :
    aggregateLoops li st.block_stats l =
      if ∃ b, b ∈ st.seen ∧ li.getLoopFor b = some l then
        some (addArith Stats.zero
          (∑ b in st.seen.filter (fun b => li.getLoopFor b = some l),
            (statsOf st.block_stats b).ArithOps.VectorFP)
          (∑ b in st.seen.filter (fun b => li.getLoopFor b = some l),
            (statsOf st.block_stats b).ArithOps.VectorInt)
          (∑ b in st.seen.filter (fun b => li.getLoopFor b = some l),
            (statsOf st.block_stats b).ArithOps.ScalarFP)
          (∑ b in st.seen.filter (fun b => li.getLoopFor b = some l),
            (statsOf st.block_stats b).ArithOps.ScalarInt))
      else none := by
  have hmem : ∀ b, (st.block_stats b).isSome = true ↔ b ∈ st.seen := by
    intro b
    constructor
    · intro h
      by_contra hb
      rw [hunseen b hb] at h
      cases h
    · exact hseen b
  have hany : (entries st.block_stats).any (fun e => decide (li.getLoopFor e.1 = some l)) = true ↔
      ∃ b, b ∈ st.seen ∧ li.getLoopFor b = some l := by
    rw [any_entries]
    constructor
    · rintro ⟨b, h1, h2⟩
      exact ⟨b, (hmem b).mp h1, h2⟩
    · rintro ⟨b, h1, h2⟩
      exact ⟨b, (hmem b).mpr h1, h2⟩
  rw [aggregateLoops, aggregate_foldl]
  by_cases hex : ∃ b, b ∈ st.seen ∧ li.getLoopFor b = some l
  · rw [if_pos (hany.mpr hex), if_pos hex]
    simp only [loopSum_entries li st.block_stats st.seen hseen hunseen, statsOf, Option.getD_none]
  · have : ¬ ((entries st.block_stats).any (fun e => decide (li.getLoopFor e.1 = some l)) = true) :=
      fun h => hex (hany.mp h)
    rw [if_neg this, if_neg hex]

theorem seen_isSome {n m : Nat} (fn : Function n) (li : LoopInfo n m) (st : LoopState n)
    (h4 : ∀ b ∈ st.seen, st.block_stats b = some (classifyBlock fn li b Stats.zero)) :
    ∀ b ∈ st.seen, (st.block_stats b).isSome = true := by
  intro b hb
  rw [h4 b hb]
  rfl

theorem addU_zero_left (x : Nat) : addU 0 x = x % UINT_RANGE := by
  simp [addU]

/-! ## Claims -/

/-- C1: for every function and entry block the traversal of `AnalyseFunction` finishes,
and then `seen` and the key set of `block_stats` are exactly the blocks reachable from the
entry along successor edges; the entry of a reachable block holds the counters of one
single pass over its instructions, started from zero, and the sequence of blocks the loop
classifies lists every reachable block once and no other block. -/
theorem visited_exactly_reachable {n m : Nat} (fn : Function n) (li : LoopInfo n m) :
    ∃ a, AnalyseFunction fn li = some a ∧
      (∀ b, b ∈ a.seen ↔ Reachable fn b) ∧
      (∀ b, (a.block_stats b).isSome = true ↔ Reachable fn b) ∧
      (∀ b, ¬ Reachable fn b → a.block_stats b = none) ∧
      (∀ b, Reachable fn b → a.block_stats b = some (classifyBlock fn li b Stats.zero)) ∧
      (visitTrace fn li fn.fuel (initialState fn)).Nodup ∧
      (∀ b, b ∈ visitTrace fn li fn.fuel (initialState fn) ↔ Reachable fn b) := by
  obtain ⟨st, hw, _, h3, h4, h5⟩ := traversal_spec fn li
  have h1 : AnalyseFunction fn li = some (report li st) := by
    simp [AnalyseFunction, AnalyseFunctionFuel, hw]
  have htrace : ∀ b, b ∈ visitTrace fn li fn.fuel (initialState fn) ↔ Reachable fn b := by
    intro b
    rw [← h3 b, visitTrace_seen fn li fn.fuel (initialState fn) st hw b]
    simp [initialState]
  refine ⟨report li st, h1, h3, ?_, ?_, ?_,
    (visitTrace_fresh fn li fn.fuel (initialState fn)).1, htrace⟩
  · intro b
    by_cases hb : b ∈ st.seen
    · simp [report, h4 b hb, (h3 b).mp hb]
    · have hr : ¬ Reachable fn b := fun h => hb ((h3 b).mpr h)
      simp [report, h5 b hb, hr]
  · intro b hb
    exact h5 b (fun h => hb ((h3 b).mp h))
  · intro b hb
    exact h4 b ((h3 b).mpr hb)

/-- C2, counterexample: in the reachable block of `wideFn`, which holds `2 ^ 32` additions,
the four arithmetic counters sum to `0`, not to the number of arithmetic instructions. -/
theorem arith_sum_wraps :
    ∃ a s, AnalyseFunction wideFn (noLoops 1) = some a ∧ a.block_stats 0 = some s ∧
      arithSum s = 0 ∧ arithCount (wideFn.block 0).instructions = 4294967296 ∧
      arithSum s ≠ arithCount (wideFn.block 0).instructions := by
  obtain ⟨st, h1, h3, h4, _⟩ := AnalyseFunction_spec wideFn (noLoops 1)
  have hseen : (0 : Fin 1) ∈ st.seen := (h3 0).mpr Relation.ReflTransGen.refl
  have hcount : arithCount (wideFn.block 0).instructions = 4294967296 :=
    arithCount_replicate_add WIDE [plainIns .Ret (.Scalar .Void)] rfl
  have hsum : arithSum (classifyBlock wideFn (noLoops 1) 0 Stats.zero) = 0 := by
    have hfold := foldl_replicate_add (noLoops 1) ((noLoops 1).getLoopFor 0) (0 : Fin 1) WIDE
      Stats.zero (by decide)
    simp only [classifyBlock, wideFn, BasicBlock.instructions, List.foldl_append, hfold]
    rfl
  refine ⟨report (noLoops 1) st, _, h1, h4 0 hseen, hsum, hcount, ?_⟩
  rw [hsum, hcount]
  decide

/-- C2, amended: for every visited block the sum of the four arithmetic counters is
congruent modulo `2 ^ 32` to the number of its instructions whose opcode is arithmetic or
`ShuffleVector`, and equals that number when it is below `2 ^ 32`; each such instruction
increments exactly one of the four counters (wrapping at `2 ^ 32`) and changes nothing else,
and no other instruction changes any of the four. -/
theorem arith_counters_sum {n m : Nat} (fn : Function n) (li : LoopInfo n m) :
    ∃ a, AnalyseFunction fn li = some a ∧
      (∀ b s, a.block_stats b = some s →
        arithSum s % UINT_RANGE = arithCount (fn.block b).instructions % UINT_RANGE ∧
        (arithCount (fn.block b).instructions < UINT_RANGE →
          arithSum s = arithCount (fn.block b).instructions)) ∧
      (∀ (loop : Option (Fin m)) (current : Fin n) (stats : Stats) (ins : Instruction n),
        (isArithOrShuffle ins.opcode = true →
          ∃ k : Bucket, classify li loop current stats ins = k.bump stats) ∧
        (isArithOrShuffle ins.opcode = false →
          (classify li loop current stats ins).ArithOps = stats.ArithOps)) := by
  obtain ⟨st, h1, _, h4, h5⟩ := AnalyseFunction_spec fn li
  refine ⟨report li st, h1, ?_, ?_⟩
  · intro b s hs
    obtain ⟨_, rfl⟩ := block_stats_of_some fn li st h4 h5 b s hs
    constructor
    · have := arithSum_foldl_mod li (li.getLoopFor b) b (fn.block b).instructions Stats.zero
      simpa [classifyBlock, arithSum, Stats.zero] using this
    · intro hlt
      have := arithSum_foldl_exact li (li.getLoopFor b) b (fn.block b).instructions Stats.zero
        (by simpa [arithSum, Stats.zero] using hlt)
      simpa [classifyBlock, arithSum, Stats.zero] using this
  · intro loop current stats ins
    exact ⟨classify_bump li loop current stats ins, classify_frame li loop current stats ins⟩

/-- C2, instance of the amended statement on the three-block loop: its body block, with two
additions, has arithmetic counters that sum to `2`. -/
theorem arith_counters_sum_witness :
    ∃ a, AnalyseFunction loopFn loopLi = some a ∧
      ∀ s, a.block_stats 1 = some s → arithSum s = 2 := by
  obtain ⟨a, h, hb, _⟩ := arith_counters_sum loopFn loopLi
  exact ⟨a, h, fun s hs => (hb 1 s hs).2 (by decide)⟩

/-- C3: an instruction with one of the twelve arithmetic opcodes increments the counter
chosen by its result type alone (vector of floating point, other vector, scalar floating
point, anything else), so two such instructions of the same type are classified alike
whatever their opcodes. -/
theorem arith_bucket_by_type {n m : Nat} (li : LoopInfo n m) (loop : Option (Fin m))
    (current : Fin n) (stats : Stats) (ins : Instruction n)
    (h : ins.opcode ∈ arithmeticOpcodes) :
    classify li loop current stats ins = (bucketOfType ins.type).bump stats ∧
      ∀ ins' : Instruction n, ins'.opcode ∈ arithmeticOpcodes → ins'.type = ins.type →
        classify li loop current stats ins' = classify li loop current stats ins := by
  refine ⟨classify_arith li loop current stats ins h, ?_⟩
  intro ins' h' ht
  rw [classify_arith li loop current stats ins h, classify_arith li loop current stats ins' h', ht]

/-- C3, instance: a floating-point `Add` on a vector of floats lands in `VectorFP`. -/
theorem arith_bucket_by_type_witness :
    classify loopLi none (1 : Fin 3) Stats.zero (plainIns .Add (.Vector .FloatingPoint)) =
        Bucket.VectorFP.bump Stats.zero ∧
      ∀ ins' : Instruction 3, ins'.opcode ∈ arithmeticOpcodes →
        ins'.type = (plainIns .Add (.Vector .FloatingPoint) : Instruction 3).type →
        classify loopLi none (1 : Fin 3) Stats.zero ins' =
          classify loopLi none (1 : Fin 3) Stats.zero (plainIns .Add (.Vector .FloatingPoint)) :=
  arith_bucket_by_type loopLi none 1 Stats.zero (plainIns .Add (.Vector .FloatingPoint))
    (by decide)

/-- C5, counterexample: in `wrapFn` the header and the body of loop `0` each count
`2 ^ 31` scalar integer operations, so the blocks of the loop sum to `2 ^ 32`, while the
`ScalarInt` counter of the loop's entry in `loop_stats` is below `2 ^ 32`. -/
theorem loop_sum_wraps :
    ∃ a ls, AnalyseFunction wrapFn loopLi = some a ∧ a.loop_stats 0 = some ls ∧
      ls.ArithOps.ScalarInt ≠
        ∑ b in a.seen.filter (fun b => loopLi.getLoopFor b = some 0),
          (statsOf a.block_stats b).ArithOps.ScalarInt := by
  obtain ⟨st, h1, h3, h4, h5⟩ := AnalyseFunction_spec wrapFn loopLi
  have hr0 : Reachable wrapFn 0 := Relation.ReflTransGen.refl
  have hr1 : Reachable wrapFn 1 := Relation.ReflTransGen.tail hr0 (by decide)
  have hs0 : (0 : Fin 3) ∈ st.seen := (h3 0).mpr hr0
  have hs1 : (1 : Fin 3) ∈ st.seen := (h3 1).mpr hr1
  have hv0 : (statsOf st.block_stats 0).ArithOps.ScalarInt = HALF := by
    have hfold := foldl_replicate_add loopLi (loopLi.getLoopFor 0) (0 : Fin 3) HALF
      Stats.zero (by decide)
    have hb : (wrapFn.block 0).instructions =
        List.replicate HALF (plainIns .Add (.Scalar .Integer)) ++
          [{ opcode := .Br, type := .Scalar .Void, isConditional := true,
             successors := [1, 2] }] := rfl
    rw [statsOf, h4 0 hs0, Option.getD_some, classifyBlock, hb, List.foldl_append, hfold]
    rfl
  have hv1 : (statsOf st.block_stats 1).ArithOps.ScalarInt = HALF := by
    have hfold := foldl_replicate_add loopLi (loopLi.getLoopFor 1) (1 : Fin 3) HALF
      Stats.zero (by decide)
    have hb : (wrapFn.block 1).instructions =
        List.replicate HALF (plainIns .Add (.Scalar .Integer)) ++
          [{ opcode := .Br, type := .Scalar .Void, isConditional := false,
             successors := [0] }] := rfl
    rw [statsOf, h4 1 hs1, Option.getD_some, classifyBlock, hb, List.foldl_append, hfold]
    rfl
  have hspec := loop_stats_spec loopLi st (seen_isSome wrapFn loopLi st h4) h5 0
  rw [if_pos ⟨0, hs0, rfl⟩] at hspec
  refine ⟨report loopLi st, _, h1, hspec, ?_⟩
  have hsub : ({0, 1} : Finset (Fin 3)) ⊆
      st.seen.filter (fun b => loopLi.getLoopFor b = some 0) := by
    intro b hb
    rw [Finset.mem_insert, Finset.mem_singleton] at hb
    rcases hb with rfl | rfl
    · exact Finset.mem_filter.mpr ⟨hs0, rfl⟩
    · exact Finset.mem_filter.mpr ⟨hs1, rfl⟩
  have hle := Finset.sum_le_sum_of_subset (f := fun b =>
    (statsOf st.block_stats b).ArithOps.ScalarInt) hsub
  rw [Finset.sum_pair (by decide)] at hle
  simp only [hv0, hv1] at hle
  have hlt : (addArith Stats.zero
      (∑ b in st.seen.filter (fun b => loopLi.getLoopFor b = some 0),
        (statsOf st.block_stats b).ArithOps.VectorFP)
      (∑ b in st.seen.filter (fun b => loopLi.getLoopFor b = some 0),
        (statsOf st.block_stats b).ArithOps.VectorInt)
      (∑ b in st.seen.filter (fun b => loopLi.getLoopFor b = some 0),
        (statsOf st.block_stats b).ArithOps.ScalarFP)
      (∑ b in st.seen.filter (fun b => loopLi.getLoopFor b = some 0),
        (statsOf st.block_stats b).ArithOps.ScalarInt)).ArithOps.ScalarInt < UINT_RANGE :=
    Nat.mod_lt _ (by decide)
  have hhalf : HALF + HALF = UINT_RANGE := rfl
  show _ ≠ ∑ b in st.seen.filter (fun b => loopLi.getLoopFor b = some 0),
    (statsOf st.block_stats b).ArithOps.ScalarInt
  omega

/-- C5, amended: for every loop `l` with an entry in `loop_stats`, each of its four
arithmetic counters equals, modulo `2 ^ 32`, the sum of the same counter of `block_stats[b]`
over exactly the visited blocks `b` with `getLoopFor(b) = l`; blocks whose innermost loop is
another loop, nested in `l` or not, contribute nothing. -/
theorem loop_stats_are_block_sums {n m : Nat} (fn : Function n) (li : LoopInfo n m) :
    ∃ a, AnalyseFunction fn li = some a ∧
      ∀ l ls, a.loop_stats l = some ls →
        ls.ArithOps.VectorFP =
          (∑ b in a.seen.filter (fun b => li.getLoopFor b = some l),
            (statsOf a.block_stats b).ArithOps.VectorFP) % UINT_RANGE ∧
        ls.ArithOps.VectorInt =
          (∑ b in a.seen.filter (fun b => li.getLoopFor b = some l),
            (statsOf a.block_stats b).ArithOps.VectorInt) % UINT_RANGE ∧
        ls.ArithOps.ScalarFP =
          (∑ b in a.seen.filter (fun b => li.getLoopFor b = some l),
            (statsOf a.block_stats b).ArithOps.ScalarFP) % UINT_RANGE ∧
        ls.ArithOps.ScalarInt =
          (∑ b in a.seen.filter (fun b => li.getLoopFor b = some l),
            (statsOf a.block_stats b).ArithOps.ScalarInt) % UINT_RANGE := by
  obtain ⟨st, h1, _, h4, h5⟩ := AnalyseFunction_spec fn li
  refine ⟨report li st, h1, ?_⟩
  intro l ls hls
  have hspec := loop_stats_spec li st (seen_isSome fn li st h4) h5 l
  have hls' : aggregateLoops li st.block_stats l = some ls := hls
  rw [hls'] at hspec
  by_cases hex : ∃ b, b ∈ st.seen ∧ li.getLoopFor b = some l
  · rw [if_pos hex] at hspec
    cases hspec
    exact ⟨addU_zero_left _, addU_zero_left _, addU_zero_left _, addU_zero_left _⟩
  · rw [if_neg hex] at hspec
    cases hspec

/-- C5, instance of the amended statement on the three-block loop: the entry of its loop
has `ScalarInt = 2`, the sum over header and body. -/
theorem loop_stats_are_block_sums_witness :
    ∃ a, AnalyseFunction loopFn loopLi = some a ∧
      ∀ ls, a.loop_stats 0 = some ls →
        ls.ArithOps.ScalarInt =
          (∑ b in a.seen.filter (fun b => loopLi.getLoopFor b = some 0),
            (statsOf a.block_stats b).ArithOps.ScalarInt) % UINT_RANGE := by
  obtain ⟨a, h, hl⟩ := loop_stats_are_block_sums loopFn loopLi
  exact ⟨a, h, fun ls hls => (hl 0 ls hls).2.2.2⟩

/-- C6: after aggregation `loop_stats` has an entry for loop `l` exactly when some
reachable block `b` has `getLoopFor(b) = l`, whatever the counters of those blocks, and
such a loop is the key of exactly one entry. -/
theorem loop_stats_keys {n m : Nat} (fn : Function n) (li : LoopInfo n m) :
    ∃ a, AnalyseFunction fn li = some a ∧
      (∀ l, (a.loop_stats l).isSome = true ↔ ∃ b, Reachable fn b ∧ li.getLoopFor b = some l) ∧
      (∀ l, (∃ b, Reachable fn b ∧ li.getLoopFor b = some l) →
        ((entries a.loop_stats).map Prod.fst).count l = 1) ∧
      (∀ l, (¬ ∃ b, Reachable fn b ∧ li.getLoopFor b = some l) →
        a.loop_stats l = none ∧ ((entries a.loop_stats).map Prod.fst).count l = 0) := by
  obtain ⟨st, h1, h3, h4, h5⟩ := AnalyseFunction_spec fn li
  have hiff : ∀ l, (aggregateLoops li st.block_stats l).isSome = true ↔
      ∃ b, Reachable fn b ∧ li.getLoopFor b = some l := by
    intro l
    rw [loop_stats_spec li st (seen_isSome fn li st h4) h5 l]
    constructor
    · intro h
      by_cases hex : ∃ b, b ∈ st.seen ∧ li.getLoopFor b = some l
      · obtain ⟨b, hb, hl⟩ := hex
        exact ⟨b, (h3 b).mp hb, hl⟩
      · rw [if_neg hex] at h
        cases h
    · rintro ⟨b, hb, hl⟩
      rw [if_pos ⟨b, (h3 b).mpr hb, hl⟩]
      rfl
  refine ⟨report li st, h1, hiff, ?_, ?_⟩
  · intro l hl
    exact count_entries_keys _ l ((hiff l).mpr hl)
  · intro l hl
    have hnone : aggregateLoops li st.block_stats l = none := by
      cases h : aggregateLoops li st.block_stats l with
      | none => rfl
      | some s => exact absurd ((hiff l).mp (by rw [h]; rfl)) hl
    refine ⟨hnone, ?_⟩
    apply List.count_eq_zero_of_not_mem
    intro hmem
    obtain ⟨e, he, hfst⟩ := List.mem_map.mp hmem
    have := (mem_entries _ e).mp he
    rw [hfst] at this
    have hnone' : (report li st).loop_stats l = none := hnone
    rw [hnone'] at this
    cases this

/-- C7: each arithmetic, branch and memory counter of the totals equals, modulo `2 ^ 32`,
the sum of the same counter of `block_stats[b]` over all visited blocks `b` (the reachable
ones), whether or not `b` belongs to a loop. -/
theorem totals_are_block_sums {n m : Nat} (fn : Function n) (li : LoopInfo n m) :
    ∃ a, AnalyseFunction fn li = some a ∧
      (∀ b, b ∈ a.seen ↔ Reachable fn b) ∧
      a.totals.ArithOps.VectorFP =
        (∑ b in a.seen, (statsOf a.block_stats b).ArithOps.VectorFP) % UINT_RANGE ∧
      a.totals.ArithOps.VectorInt =
        (∑ b in a.seen, (statsOf a.block_stats b).ArithOps.VectorInt) % UINT_RANGE ∧
      a.totals.ArithOps.ScalarFP =
        (∑ b in a.seen, (statsOf a.block_stats b).ArithOps.ScalarFP) % UINT_RANGE ∧
      a.totals.ArithOps.ScalarInt =
        (∑ b in a.seen, (statsOf a.block_stats b).ArithOps.ScalarInt) % UINT_RANGE ∧
      a.totals.Branches = (∑ b in a.seen, (statsOf a.block_stats b).Branches) % UINT_RANGE ∧
      a.totals.LatchBranches =
        (∑ b in a.seen, (statsOf a.block_stats b).LatchBranches) % UINT_RANGE ∧
      a.totals.Jumps = (∑ b in a.seen, (statsOf a.block_stats b).Jumps) % UINT_RANGE ∧
      a.totals.LatchJumps =
        (∑ b in a.seen, (statsOf a.block_stats b).LatchJumps) % UINT_RANGE ∧
      a.totals.LocalMemoryLoad =
        (∑ b in a.seen, (statsOf a.block_stats b).LocalMemoryLoad) % UINT_RANGE ∧
      a.totals.LocalMemoryStore =
        (∑ b in a.seen, (statsOf a.block_stats b).LocalMemoryStore) % UINT_RANGE ∧
      a.totals.GlobalMemoryLoad =
        (∑ b in a.seen, (statsOf a.block_stats b).GlobalMemoryLoad) % UINT_RANGE ∧
      a.totals.GlobalMemoryStore =
        (∑ b in a.seen, (statsOf a.block_stats b).GlobalMemoryStore) % UINT_RANGE := by
  obtain ⟨st, h1, h3, h4, h5⟩ := AnalyseFunction_spec fn li
  have key := computeTotals_sel st.block_stats st.seen (seen_isSome fn li st h4) h5
  exact ⟨report li st, h1, h3,
    key (fun s => s.ArithOps.VectorFP) (fun _ _ => rfl) rfl,
    key (fun s => s.ArithOps.VectorInt) (fun _ _ => rfl) rfl,
    key (fun s => s.ArithOps.ScalarFP) (fun _ _ => rfl) rfl,
    key (fun s => s.ArithOps.ScalarInt) (fun _ _ => rfl) rfl,
    key (fun s => s.Branches) (fun _ _ => rfl) rfl,
    key (fun s => s.LatchBranches) (fun _ _ => rfl) rfl,
    key (fun s => s.Jumps) (fun _ _ => rfl) rfl,
    key (fun s => s.LatchJumps) (fun _ _ => rfl) rfl,
    key (fun s => s.LocalMemoryLoad) (fun _ _ => rfl) rfl,
    key (fun s => s.LocalMemoryStore) (fun _ _ => rfl) rfl,
    key (fun s => s.GlobalMemoryLoad) (fun _ _ => rfl) rfl,
    key (fun s => s.GlobalMemoryStore) (fun _ _ => rfl) rfl⟩

/-- C8: on the three-block loop (header, body with two scalar integer additions, exit; the
body is the latch of the one loop, of depth 1) the totals are `Branches = 1`,
`LatchBranches = 0`, `LatchJumps = 1`, `Jumps = 0`, `ScalarInt = 2` with the other arithmetic
counters `0`, and `loop_stats` has exactly one entry, for the loop, with `ScalarInt = 2`,
reported at depth 1. -/
theorem three_block_loop_report :
    ∃ a, AnalyseFunction loopFn loopLi = some a ∧
      a.totals.Branches = 1 ∧ a.totals.LatchBranches = 0 ∧
      a.totals.LatchJumps = 1 ∧ a.totals.Jumps = 0 ∧
      a.totals.ArithOps = { VectorInt := 0, VectorFP := 0, ScalarInt := 2, ScalarFP := 0 } ∧
      (entries a.loop_stats).map Prod.fst = [0] ∧
      (a.loop_stats 0).map (fun ls => ls.ArithOps) =
        some { VectorInt := 0, VectorFP := 0, ScalarInt := 2, ScalarFP := 0 } ∧
      a.loopLines =
        [{ Depth := 1, VectorFP := 0, VectorInt := 0, ScalarFP := 0, ScalarInt := 2 }] := by
  refine ⟨(AnalyseFunction loopFn loopLi).get (by decide), by simp, ?_⟩
  decide

/-- C9, the code at the failing input: in the three-block loop the body (block 1) is the
latch of its innermost loop and ends in an unconditional branch, yet the `Latch=` field of
its report line is `NO`. -/
theorem latch_field_misses_jump_latch :
    isLatch loopLi 1 ∧
      ∃ a, AnalyseFunction loopFn loopLi = some a ∧
        (a.block_stats 1).map (fun s => (blockLine loopLi (1, s)).Latch) = some "NO" ∧
        a.blockLines.map (fun line => line.Latch) = ["NO", "NO", "NO"] := by
  refine ⟨⟨0, rfl, rfl⟩, (AnalyseFunction loopFn loopLi).get (by decide), by simp, ?_⟩
  decide

/-- C10, the code on functions without arithmetic: when no reachable block holds an
arithmetic or shuffle instruction, each of the four percentages of the "Total Arith. Ops"
line is the quotient `0.0 / 0.0`, a NaN; the division has no guard. -/
theorem percentages_nan_without_arith {n m : Nat} (fn : Function n) (li : LoopInfo n m)
    (h : ∀ b, Reachable fn b → arithCount (fn.block b).instructions = 0) :
    ∃ a, AnalyseFunction fn li = some a ∧
      a.percentages =
        { VectorFP := Quotient64.NaN, VectorInt := Quotient64.NaN,
          ScalarFP := Quotient64.NaN, ScalarInt := Quotient64.NaN } := by
  obtain ⟨st, h1, h3, h4, h5⟩ := AnalyseFunction_spec fn li
  refine ⟨report li st, h1, ?_⟩
  have hzero : ∀ b ∈ st.seen, arithSum (statsOf st.block_stats b) = 0 := by
    intro b hb
    have hc := h b ((h3 b).mp hb)
    have := arithSum_foldl_exact li (li.getLoopFor b) b (fn.block b).instructions Stats.zero
      (by rw [hc]; decide)
    rw [hc] at this
    rw [statsOf, h4 b hb]
    exact this
  have key := computeTotals_sel st.block_stats st.seen (seen_isSome fn li st h4) h5
  have k1 := key (fun s => s.ArithOps.VectorFP) (fun _ _ => rfl) rfl
  have k2 := key (fun s => s.ArithOps.VectorInt) (fun _ _ => rfl) rfl
  have k3 := key (fun s => s.ArithOps.ScalarFP) (fun _ _ => rfl) rfl
  have k4 := key (fun s => s.ArithOps.ScalarInt) (fun _ _ => rfl) rfl
  have z1 : ∑ b in st.seen, (statsOf st.block_stats b).ArithOps.VectorFP = 0 :=
    Finset.sum_eq_zero (fun b hb => by have := hzero b hb; simp only [arithSum] at this; omega)
  have z2 : ∑ b in st.seen, (statsOf st.block_stats b).ArithOps.VectorInt = 0 :=
    Finset.sum_eq_zero (fun b hb => by have := hzero b hb; simp only [arithSum] at this; omega)
  have z3 : ∑ b in st.seen, (statsOf st.block_stats b).ArithOps.ScalarFP = 0 :=
    Finset.sum_eq_zero (fun b hb => by have := hzero b hb; simp only [arithSum] at this; omega)
  have z4 : ∑ b in st.seen, (statsOf st.block_stats b).ArithOps.ScalarInt = 0 :=
    Finset.sum_eq_zero (fun b hb => by have := hzero b hb; simp only [arithSum] at this; omega)
  simp only [z1, z2, z3, z4, Nat.zero_mod] at k1 k2 k3 k4
  simp only [report, arithPercentages, percentage, k1, k2, k3, k4]
  rfl

/-- C10, failing input: `straightFn` has a load, a store and two terminators but no
arithmetic, and its four percentages are NaN. -/
theorem percentages_nan_without_arith_witness :
    ∃ a, AnalyseFunction straightFn (noLoops 2) = some a ∧
      a.percentages =
        { VectorFP := Quotient64.NaN, VectorInt := Quotient64.NaN,
          ScalarFP := Quotient64.NaN, ScalarInt := Quotient64.NaN } :=
  percentages_nan_without_arith straightFn (noLoops 2)
    (fun b _ => (by decide : ∀ b : Fin 2, arithCount (straightFn.block b).instructions = 0) b)

/-! ## Counting one opcode group in a block -/

theorem counter_foldl {n m : Nat} (li : LoopInfo n m) (loop : Option (Fin m)) (current : Fin n)
    (sel : Stats → Nat) (p : Instruction n → Bool)
    (hstep : ∀ s i, sel (classify li loop current s i) = if p i then inc (sel s) else sel s)
    (l : List (Instruction n)) :
    ∀ s : Stats, sel s < UINT_RANGE →
      sel (l.foldl (classify li loop current) s) = (sel s + l.countP p) % UINT_RANGE := by
  induction l with
  | nil =>
    intro s hs
    simp [Nat.mod_eq_of_lt hs]
  | cons i l ih =>
    intro s hs
    have hlt : sel (classify li loop current s i) < UINT_RANGE := by
      rw [hstep]
      split_ifs
      · exact Nat.mod_lt _ (by decide)
      · exact hs
    rw [List.foldl_cons, ih _ hlt, hstep, List.countP_cons]
    cases hp : p i <;> simp only [if_true, if_false, inc, UINT_RANGE, Bool.false_eq_true] <;> omega

theorem step_GlobalMemoryLoad {n m : Nat} (li : LoopInfo n m) (loop : Option (Fin m))
    (current : Fin n) (s : Stats) (ins : Instruction n) :
    (classify li loop current s ins).GlobalMemoryLoad =
      if decide (ins.opcode ∈ [Opcode.Load]) then inc s.GlobalMemoryLoad
      else s.GlobalMemoryLoad := by
  rcases ins with ⟨op, t, c, ss⟩
  cases op <;> first
    | rfl
    | (simp only [classify, countArith, countShuffle, countBr]
       split_ifs <;> first | rfl | (exfalso; simp at *))

theorem step_GlobalMemoryStore {n m : Nat} (li : LoopInfo n m) (loop : Option (Fin m))
    (current : Fin n) (s : Stats) (ins : Instruction n) :
    (classify li loop current s ins).GlobalMemoryStore =
      if decide (ins.opcode ∈ [Opcode.Store]) then inc s.GlobalMemoryStore
      else s.GlobalMemoryStore := by
  rcases ins with ⟨op, t, c, ss⟩
  cases op <;> first
    | rfl
    | (simp only [classify, countArith, countShuffle, countBr]
       split_ifs <;> first | rfl | (exfalso; simp at *))

theorem step_IntToFP {n m : Nat} (li : LoopInfo n m) (loop : Option (Fin m))
    (current : Fin n) (s : Stats) (ins : Instruction n) :
    (classify li loop current s ins).IntToFP =
      if decide (ins.opcode ∈ [Opcode.UIToFP, Opcode.SIToFP]) then inc s.IntToFP
      else s.IntToFP := by
  rcases ins with ⟨op, t, c, ss⟩
  cases op <;> first
    | rfl
    | (simp only [classify, countArith, countShuffle, countBr]
       split_ifs <;> first | rfl | (exfalso; simp at *))

theorem step_FPToInt {n m : Nat} (li : LoopInfo n m) (loop : Option (Fin m))
    (current : Fin n) (s : Stats) (ins : Instruction n) :
    (classify li loop current s ins).FPToInt =
      if decide (ins.opcode ∈ [Opcode.FPToUI, Opcode.FPToSI]) then inc s.FPToInt
      else s.FPToInt := by
  rcases ins with ⟨op, t, c, ss⟩
  cases op <;> first
    | rfl
    | (simp only [classify, countArith, countShuffle, countBr]
       split_ifs <;> first | rfl | (exfalso; simp at *))

theorem step_LocalMemory {n m : Nat} (li : LoopInfo n m) (loop : Option (Fin m))
    (current : Fin n) (s : Stats) (ins : Instruction n) :
    (classify li loop current s ins).LocalMemoryLoad = s.LocalMemoryLoad ∧
      (classify li loop current s ins).LocalMemoryStore = s.LocalMemoryStore := by
  rcases ins with ⟨op, t, c, ss⟩
  cases op <;> first
    | exact ⟨rfl, rfl⟩
    | (simp only [classify, countArith]; split_ifs <;> exact ⟨rfl, rfl⟩)
    | (simp only [classify, countShuffle]; split_ifs <;> exact ⟨rfl, rfl⟩)
    | (simp only [classify, countBr]; split_ifs <;> exact ⟨rfl, rfl⟩)

theorem foldl_LocalMemory {n m : Nat} (li : LoopInfo n m) (loop : Option (Fin m))
    (current : Fin n) (l : List (Instruction n)) :
    ∀ s : Stats, (l.foldl (classify li loop current) s).LocalMemoryLoad = s.LocalMemoryLoad ∧
      (l.foldl (classify li loop current) s).LocalMemoryStore = s.LocalMemoryStore := by
  induction l with
  | nil => intro s; exact ⟨rfl, rfl⟩
  | cons i l ih =>
    intro s
    have h1 := step_LocalMemory li loop current s i
    have h2 := ih (classify li loop current s i)
    rw [List.foldl_cons]
    exact ⟨h2.1.trans h1.1, h2.2.trans h1.2⟩

theorem opcodeCount_replicate {n : Nat} (ops : List Opcode) (k : Nat) (ins : Instruction n)
    (tail : List (Instruction n)) (hin : ins.opcode ∈ ops) (h : opcodeCount ops tail = 0) :
    opcodeCount ops (List.replicate k ins ++ tail) = k := by
  induction k with
  | zero => simpa using h
  | succ k ih =>
    rw [List.replicate_succ, List.cons_append]
    unfold opcodeCount at ih h ⊢
    rw [List.countP_cons, ih]
    simp [hin]

theorem block_counters {n m : Nat} (fn : Function n) (li : LoopInfo n m) (b : Fin n) :
    (classifyBlock fn li b Stats.zero).GlobalMemoryLoad =
        opcodeCount [Opcode.Load] (fn.block b).instructions % UINT_RANGE ∧
      (classifyBlock fn li b Stats.zero).GlobalMemoryStore =
        opcodeCount [Opcode.Store] (fn.block b).instructions % UINT_RANGE ∧
      (classifyBlock fn li b Stats.zero).IntToFP =
        opcodeCount [Opcode.UIToFP, Opcode.SIToFP] (fn.block b).instructions % UINT_RANGE ∧
      (classifyBlock fn li b Stats.zero).FPToInt =
        opcodeCount [Opcode.FPToUI, Opcode.FPToSI] (fn.block b).instructions % UINT_RANGE ∧
      (classifyBlock fn li b Stats.zero).LocalMemoryLoad = 0 ∧
      (classifyBlock fn li b Stats.zero).LocalMemoryStore = 0 := by
  have hz : (0 : Nat) < UINT_RANGE := by decide
  have h1 := counter_foldl li (li.getLoopFor b) b (fun s => s.GlobalMemoryLoad) _
    (step_GlobalMemoryLoad li (li.getLoopFor b) b) (fn.block b).instructions Stats.zero hz
  have h2 := counter_foldl li (li.getLoopFor b) b (fun s => s.GlobalMemoryStore) _
    (step_GlobalMemoryStore li (li.getLoopFor b) b) (fn.block b).instructions Stats.zero hz
  have h3 := counter_foldl li (li.getLoopFor b) b (fun s => s.IntToFP) _
    (step_IntToFP li (li.getLoopFor b) b) (fn.block b).instructions Stats.zero hz
  have h4 := counter_foldl li (li.getLoopFor b) b (fun s => s.FPToInt) _
    (step_FPToInt li (li.getLoopFor b) b) (fn.block b).instructions Stats.zero hz
  have h5 := foldl_LocalMemory li (li.getLoopFor b) b (fn.block b).instructions Stats.zero
  simp only [Stats.zero, Nat.zero_add] at h1 h2 h3 h4 h5
  exact ⟨h1, h2, h3, h4, h5.1, h5.2⟩

theorem repeatFn_block_stats (k : Nat) (ins : Instruction 1) :
    ∃ st, AnalyseFunction (repeatFn k ins) (noLoops 1) = some (report (noLoops 1) st) ∧
      st.block_stats 0 = some (classifyBlock (repeatFn k ins) (noLoops 1) 0 Stats.zero) := by
  obtain ⟨st, h1, h3, h4, _⟩ := AnalyseFunction_spec (repeatFn k ins) (noLoops 1)
  exact ⟨st, h1, h4 0 ((h3 0).mpr Relation.ReflTransGen.refl)⟩

/-- C11, counterexample: a reachable block with `2 ^ 32` loads ends with
`GlobalMemoryLoad = 0`, not with the number of its `Load` instructions. -/
theorem load_counter_wraps :
    ∃ a s, AnalyseFunction (repeatFn WIDE (plainIns .Load (.Scalar .Integer))) (noLoops 1) = some a ∧
      a.block_stats 0 = some s ∧ s.GlobalMemoryLoad = 0 ∧
      opcodeCount [Opcode.Load]
        ((repeatFn WIDE (plainIns .Load (.Scalar .Integer))).block 0).instructions =
          4294967296 := by
  obtain ⟨st, h1, h2⟩ := repeatFn_block_stats WIDE (plainIns .Load (.Scalar .Integer))
  have hcount : opcodeCount [Opcode.Load]
      ((repeatFn WIDE (plainIns .Load (.Scalar .Integer))).block 0).instructions = WIDE :=
    opcodeCount_replicate [Opcode.Load] WIDE (plainIns .Load (.Scalar .Integer))
      [plainIns .Ret (.Scalar .Void)] (by decide) rfl
  refine ⟨report (noLoops 1) st, _, h1, h2, ?_, hcount⟩
  rw [(block_counters _ (noLoops 1) 0).1, hcount]
  rfl

/-- C11, amended: for every visited block `GlobalMemoryLoad` equals the number of its `Load`
instructions modulo `2 ^ 32` (so exactly, below `2 ^ 32`), `GlobalMemoryStore` likewise the
number of its `Store` instructions, and `LocalMemoryLoad` and `LocalMemoryStore` are `0`;
the totals' `LocalMemoryLoad` and `LocalMemoryStore` are `0` for every function. -/
theorem memory_counters {n m : Nat} (fn : Function n) (li : LoopInfo n m) :
    ∃ a, AnalyseFunction fn li = some a ∧
      (∀ b s, a.block_stats b = some s →
        s.GlobalMemoryLoad =
          opcodeCount [Opcode.Load] (fn.block b).instructions % UINT_RANGE ∧
        s.GlobalMemoryStore =
          opcodeCount [Opcode.Store] (fn.block b).instructions % UINT_RANGE ∧
        (opcodeCount [Opcode.Load] (fn.block b).instructions < UINT_RANGE →
          s.GlobalMemoryLoad = opcodeCount [Opcode.Load] (fn.block b).instructions) ∧
        (opcodeCount [Opcode.Store] (fn.block b).instructions < UINT_RANGE →
          s.GlobalMemoryStore = opcodeCount [Opcode.Store] (fn.block b).instructions) ∧
        s.LocalMemoryLoad = 0 ∧ s.LocalMemoryStore = 0) ∧
      a.totals.LocalMemoryLoad = 0 ∧ a.totals.LocalMemoryStore = 0 := by
  obtain ⟨st, h1, _, h4, h5⟩ := AnalyseFunction_spec fn li
  have hloc : ∀ b ∈ st.seen, (statsOf st.block_stats b).LocalMemoryLoad = 0 ∧
      (statsOf st.block_stats b).LocalMemoryStore = 0 := by
    intro b hb
    rw [statsOf, h4 b hb]
    exact ⟨(block_counters fn li b).2.2.2.2.1, (block_counters fn li b).2.2.2.2.2⟩
  have key := computeTotals_sel st.block_stats st.seen (seen_isSome fn li st h4) h5
  refine ⟨report li st, h1, ?_, ?_, ?_⟩
  · intro b s hs
    obtain ⟨_, rfl⟩ := block_stats_of_some fn li st h4 h5 b s hs
    obtain ⟨c1, c2, _, _, c5, c6⟩ := block_counters fn li b
    refine ⟨c1, c2, ?_, ?_, c5, c6⟩
    · intro hlt
      rw [c1, Nat.mod_eq_of_lt hlt]
    · intro hlt
      rw [c2, Nat.mod_eq_of_lt hlt]
  · have := key (fun s => s.LocalMemoryLoad) (fun _ _ => rfl) rfl
    rw [Finset.sum_eq_zero (fun b hb => (hloc b hb).1)] at this
    exact this
  · have := key (fun s => s.LocalMemoryStore) (fun _ _ => rfl) rfl
    rw [Finset.sum_eq_zero (fun b hb => (hloc b hb).2)] at this
    exact this

/-- C11, instance of the amended statement: in `straightFn` block 0 counts one global load
and no store. -/
theorem memory_counters_witness :
    ∃ a, AnalyseFunction straightFn (noLoops 2) = some a ∧
      ∀ s, a.block_stats 0 = some s → s.GlobalMemoryLoad = 1 ∧ s.GlobalMemoryStore = 0 := by
  obtain ⟨a, h, hb, _⟩ := memory_counters straightFn (noLoops 2)
  refine ⟨a, h, fun s hs => ?_⟩
  obtain ⟨_, _, h3, h4, _⟩ := hb 0 s hs
  exact ⟨h3 (by decide), h4 (by decide)⟩

/-- C12: an instruction whose opcode is none of the twenty counted opcodes (so `ICmp`,
`FCmp`, `ZExt`, `SExt`, `Trunc`, `FPExt`, `FPTrunc`, `Ret`, `Switch`, among others) leaves
every counter unchanged, and an instruction of any opcode raises the sum of all counters
by at most one. -/
theorem uncounted_opcodes_frame {n m : Nat} (li : LoopInfo n m) (loop : Option (Fin m))
    (current : Fin n) (stats : Stats) (ins : Instruction n) :
    (ins.opcode ∉ countedOpcodes → classify li loop current stats ins = stats) ∧
      totalSum (classify li loop current stats ins) ≤ totalSum stats + 1 ∧
      (∀ op ∈ [Opcode.ICmp, Opcode.FCmp, Opcode.ZExt, Opcode.SExt, Opcode.Trunc, Opcode.FPExt,
        Opcode.FPTrunc, Opcode.Ret, Opcode.Switch], op ∉ countedOpcodes) := by
  refine ⟨?_, ?_, by decide⟩
  · intro h
    rcases ins with ⟨op, t, c, ss⟩
    cases op <;> first
      | rfl
      | (simp [countedOpcodes, arithmeticOpcodes] at h)
  · have hinc : ∀ x : Nat, inc x ≤ x + 1 := fun x => Nat.mod_le _ _
    have a1 := hinc stats.ArithOps.VectorFP
    have a2 := hinc stats.ArithOps.VectorInt
    have a3 := hinc stats.ArithOps.ScalarFP
    have a4 := hinc stats.ArithOps.ScalarInt
    have b1 := hinc stats.LatchBranches
    have b2 := hinc stats.Branches
    have b3 := hinc stats.LatchJumps
    have b4 := hinc stats.Jumps
    have c1 := hinc stats.IntToFP
    have c2 := hinc stats.FPToInt
    have d1 := hinc stats.GlobalMemoryLoad
    have d2 := hinc stats.GlobalMemoryStore
    rcases ins with ⟨op, t, c, ss⟩
    cases op <;> first
      | exact Nat.le_succ _
      | (simp only [classify, countArith, countShuffle, countBr]
         (try split_ifs) <;> simp only [totalSum, arithSum] <;> omega)

/-- C13, counterexample: a reachable block with `2 ^ 32` `UIToFP` conversions ends with
`IntToFP = 0`, not with the number of its conversions. -/
theorem conversion_counter_wraps :
    ∃ a s, AnalyseFunction (repeatFn WIDE (plainIns .UIToFP (.Scalar .FloatingPoint)))
        (noLoops 1) = some a ∧
      a.block_stats 0 = some s ∧ s.IntToFP = 0 ∧
      opcodeCount [Opcode.UIToFP, Opcode.SIToFP]
        ((repeatFn WIDE (plainIns .UIToFP (.Scalar .FloatingPoint))).block 0).instructions =
          4294967296 := by
  obtain ⟨st, h1, h2⟩ := repeatFn_block_stats WIDE (plainIns .UIToFP (.Scalar .FloatingPoint))
  have hcount : opcodeCount [Opcode.UIToFP, Opcode.SIToFP]
      ((repeatFn WIDE (plainIns .UIToFP (.Scalar .FloatingPoint))).block 0).instructions = WIDE :=
    opcodeCount_replicate [Opcode.UIToFP, Opcode.SIToFP] WIDE
      (plainIns .UIToFP (.Scalar .FloatingPoint)) [plainIns .Ret (.Scalar .Void)] (by decide) rfl
  refine ⟨report (noLoops 1) st, _, h1, h2, ?_, hcount⟩
  rw [(block_counters _ (noLoops 1) 0).2.2.1, hcount]
  rfl

/-- C13, amended: for every visited block `IntToFP` equals the number of its `UIToFP` and
`SIToFP` instructions modulo `2 ^ 32` (so exactly, below `2 ^ 32`) and `FPToInt` likewise the
number of its `FPToUI` and `FPToSI` instructions, whatever the result types; a conversion
instruction changes none of the four arithmetic counters. -/
theorem conversion_counters {n m : Nat} (fn : Function n) (li : LoopInfo n m) :
    ∃ a, AnalyseFunction fn li = some a ∧
      (∀ b s, a.block_stats b = some s →
        s.IntToFP =
          opcodeCount [Opcode.UIToFP, Opcode.SIToFP] (fn.block b).instructions % UINT_RANGE ∧
        s.FPToInt =
          opcodeCount [Opcode.FPToUI, Opcode.FPToSI] (fn.block b).instructions % UINT_RANGE ∧
        (opcodeCount [Opcode.UIToFP, Opcode.SIToFP] (fn.block b).instructions < UINT_RANGE →
          s.IntToFP = opcodeCount [Opcode.UIToFP, Opcode.SIToFP] (fn.block b).instructions) ∧
        (opcodeCount [Opcode.FPToUI, Opcode.FPToSI] (fn.block b).instructions < UINT_RANGE →
          s.FPToInt = opcodeCount [Opcode.FPToUI, Opcode.FPToSI] (fn.block b).instructions)) ∧
      (∀ (loop : Option (Fin m)) (current : Fin n) (stats : Stats) (ins : Instruction n),
        ins.opcode ∈ [Opcode.UIToFP, Opcode.SIToFP, Opcode.FPToUI, Opcode.FPToSI] →
          (classify li loop current stats ins).ArithOps = stats.ArithOps) := by
  obtain ⟨st, h1, _, h4, h5⟩ := AnalyseFunction_spec fn li
  refine ⟨report li st, h1, ?_, ?_⟩
  · intro b s hs
    obtain ⟨_, rfl⟩ := block_stats_of_some fn li st h4 h5 b s hs
    obtain ⟨_, _, c3, c4, _, _⟩ := block_counters fn li b
    refine ⟨c3, c4, ?_, ?_⟩
    · intro hlt
      rw [c3, Nat.mod_eq_of_lt hlt]
    · intro hlt
      rw [c4, Nat.mod_eq_of_lt hlt]
  · intro loop current stats ins hop
    apply classify_frame
    simp only [List.mem_cons, List.mem_singleton, List.not_mem_nil, or_false] at hop
    rcases hop with h | h | h | h <;> rw [h] <;> rfl

/-- C13, instance of the amended statement: a block holding one `SIToFP` with a vector result
has `IntToFP = 1` and `FPToInt = 0`. -/
theorem conversion_counters_witness :
    ∃ a, AnalyseFunction
        (repeatFn 1 (plainIns .SIToFP (.Vector .FloatingPoint))) (noLoops 1) = some a ∧
      ∀ s, a.block_stats 0 = some s → s.IntToFP = 1 ∧ s.FPToInt = 0 := by
  obtain ⟨a, h, hb, _⟩ :=
    conversion_counters (repeatFn 1 (plainIns .SIToFP (.Vector .FloatingPoint))) (noLoops 1)
  refine ⟨a, h, fun s hs => ?_⟩
  obtain ⟨_, _, h3, h4⟩ := hb 0 s hs
  exact ⟨h3 (by decide), h4 (by decide)⟩

/-- C14: for every loop with an entry in `loop_stats`, the ten counters that are not
arithmetic counters are `0` in that entry, whatever the attributed blocks contain. -/
theorem loop_stats_other_counters_zero {n m : Nat} (fn : Function n) (li : LoopInfo n m) :
    ∃ a, AnalyseFunction fn li = some a ∧
      ∀ l ls, a.loop_stats l = some ls →
        ls.IntToFP = 0 ∧ ls.FPToInt = 0 ∧ ls.Branches = 0 ∧ ls.LatchBranches = 0 ∧
        ls.Jumps = 0 ∧ ls.LatchJumps = 0 ∧ ls.GlobalMemoryLoad = 0 ∧ ls.GlobalMemoryStore = 0 ∧
        ls.LocalMemoryLoad = 0 ∧ ls.LocalMemoryStore = 0 := by
  obtain ⟨st, h1, _, h4, h5⟩ := AnalyseFunction_spec fn li
  refine ⟨report li st, h1, ?_⟩
  intro l ls hls
  have hspec := loop_stats_spec li st (seen_isSome fn li st h4) h5 l
  have hls' : aggregateLoops li st.block_stats l = some ls := hls
  rw [hls'] at hspec
  by_cases hex : ∃ b, b ∈ st.seen ∧ li.getLoopFor b = some l
  · rw [if_pos hex] at hspec
    cases hspec
    exact ⟨rfl, rfl, rfl, rfl, rfl, rfl, rfl, rfl, rfl, rfl⟩
  · rw [if_neg hex] at hspec
    cases hspec

/-- C14, instance: in the three-block loop, whose loop holds a conditional branch and a
latch jump, the entry of the loop has no branch or jump counted. -/
theorem loop_stats_other_counters_zero_witness :
    ∃ a, AnalyseFunction loopFn loopLi = some a ∧
      ∀ ls, a.loop_stats 0 = some ls →
        ls.Branches = 0 ∧ ls.LatchBranches = 0 ∧ ls.Jumps = 0 ∧ ls.LatchJumps = 0 := by
  obtain ⟨a, h, hl⟩ := loop_stats_other_counters_zero loopFn loopLi
  refine ⟨a, h, fun ls hls => ?_⟩
  obtain ⟨_, _, h3, h4, h5, h6, _⟩ := hl 0 ls hls
  exact ⟨h3, h4, h5, h6⟩

/-! ## Number of iterations -/

theorem loopIterations_potential {n m : Nat} (fn : Function n) (li : LoopInfo n m) :
    ∀ (fuel : Nat) (st st' : LoopState n), whileLoop fn li fuel st = some st' →
      ∃ k, loopIterations fn li fuel st = some k ∧ k + potential fn st' = potential fn st := by
  intro fuel
  induction fuel with
  | zero =>
    intro st st' h
    cases hq : st.block_stack with
    | nil =>
      simp only [whileLoop, hq, Option.some.injEq] at h
      subst h
      exact ⟨0, by simp [loopIterations, hq], by simp⟩
    | cons current rest => simp [whileLoop, hq] at h
  | succ fuel ih =>
    intro st st' h
    cases hq : st.block_stack with
    | nil =>
      simp only [whileLoop, hq, Option.some.injEq] at h
      subst h
      exact ⟨0, by simp [loopIterations, hq], by simp⟩
    | cons current rest =>
      simp only [whileLoop, hq] at h
      obtain ⟨k, hk, hp⟩ := ih (iteration fn li st current rest) st' h
      have hpot := potential_iteration fn li st current rest hq
      exact ⟨k + 1, by simp [loopIterations, hq, hk], by omega⟩

theorem loopIterations_mono {n m : Nat} (fn : Function n) (li : LoopInfo n m) :
    ∀ (fuel : Nat) (st : LoopState n) (k : Nat), loopIterations fn li fuel st = some k →
      ∀ fuel', fuel ≤ fuel' → loopIterations fn li fuel' st = some k := by
  intro fuel
  induction fuel with
  | zero =>
    intro st k h fuel' _
    cases hq : st.block_stack with
    | nil =>
      simp only [loopIterations, hq, Option.some.injEq] at h
      subst h
      cases fuel' <;> simp [loopIterations, hq]
    | cons current rest => simp [loopIterations, hq] at h
  | succ fuel ih =>
    intro st k h fuel' hle
    cases hq : st.block_stack with
    | nil =>
      simp only [loopIterations, hq, Option.some.injEq] at h
      subst h
      cases fuel' <;> simp [loopIterations, hq]
    | cons current rest =>
      cases fuel' with
      | zero => omega
      | succ fuel' =>
        simp only [loopIterations, hq, Option.map_eq_some'] at h ⊢
        obtain ⟨k', hk', rfl⟩ := h
        exact ⟨k', ih _ k' hk' fuel' (by omega), rfl⟩

theorem whileLoop_mono {n m : Nat} (fn : Function n) (li : LoopInfo n m) :
    ∀ (fuel : Nat) (st st' : LoopState n), whileLoop fn li fuel st = some st' →
      ∀ fuel', fuel ≤ fuel' → whileLoop fn li fuel' st = some st' := by
  intro fuel
  induction fuel with
  | zero =>
    intro st st' h fuel' _
    cases hq : st.block_stack with
    | nil =>
      simp only [whileLoop, hq, Option.some.injEq] at h
      subst h
      cases fuel' <;> simp [whileLoop, hq]
    | cons current rest => simp [whileLoop, hq] at h
  | succ fuel ih =>
    intro st st' h fuel' hle
    cases hq : st.block_stack with
    | nil =>
      simp only [whileLoop, hq, Option.some.injEq] at h
      subst h
      cases fuel' <;> simp [whileLoop, hq]
    | cons current rest =>
      cases fuel' with
      | zero => omega
      | succ fuel' =>
        simp only [whileLoop, hq] at h ⊢
        exact ih _ st' h fuel' (by omega)

theorem iterations_spec {n m : Nat} (fn : Function n) (li : LoopInfo n m) (st : LoopState n)
    (hw : whileLoop fn li fn.fuel (initialState fn) = some st) (hq : st.block_stack = []) :
    ∃ k, loopIterations fn li fn.fuel (initialState fn) = some k ∧
      k = 1 + ∑ b in st.seen, (fn.successors b).length ∧
      k ≤ 1 + ∑ b : Fin n, (fn.successors b).length := by
  obtain ⟨k, hk, hp⟩ := loopIterations_potential fn li fn.fuel (initialState fn) st hw
  have hfuel : fn.fuel = 1 + ∑ b : Fin n, (fn.successors b).length := by
    simp [Function.fuel, Fin.sum_univ_def]
  have hsplit := Finset.sum_add_sum_compl st.seen (fun b => (fn.successors b).length)
  rw [potential_initialState, hfuel] at hp
  simp only [potential, hq, List.length_nil, Nat.zero_add] at hp
  refine ⟨k, hk, ?_, ?_⟩ <;> omega

/-- C15: the traversal terminates for every function: the number of iterations of the
`while` loop is `1` plus the number of successor edges leaving the reachable blocks (each
visited block pushes its successors once), and neither that number nor the result changes
with a larger iteration budget. -/
theorem traversal_iterations {n m : Nat} (fn : Function n) (li : LoopInfo n m) :
    ∃ a k, AnalyseFunction fn li = some a ∧
      loopIterations fn li fn.fuel (initialState fn) = some k ∧
      (∀ b, b ∈ a.seen ↔ Reachable fn b) ∧
      k = 1 + ∑ b in a.seen, (fn.successors b).length ∧
      k ≤ 1 + ∑ b : Fin n, (fn.successors b).length ∧
      (∀ fuel, fn.fuel ≤ fuel → loopIterations fn li fuel (initialState fn) = some k ∧
        AnalyseFunctionFuel fuel fn li = some a) := by
  obtain ⟨st, hw, hq, h3, _, _⟩ := traversal_spec fn li
  obtain ⟨k, hk, hk1, hk2⟩ := iterations_spec fn li st hw hq
  refine ⟨report li st, k, by simp [AnalyseFunction, AnalyseFunctionFuel, hw], hk, h3, hk1, hk2,
    ?_⟩
  intro fuel hle
  refine ⟨loopIterations_mono fn li fn.fuel _ k hk fuel hle, ?_⟩
  simp [AnalyseFunctionFuel, whileLoop_mono fn li fn.fuel _ st hw fuel hle]

/-! ## Latch branches, shuffles and blocks of one instruction -/

theorem step_LatchBranches {n m : Nat} (li : LoopInfo n m) (loop : Option (Fin m))
    (current : Fin n) (s : Stats) (ins : Instruction n) :
    (classify li loop current s ins).LatchBranches =
      if (decide (ins.opcode = Opcode.Br) && ins.isConditional && latchTest li loop current)
      then inc s.LatchBranches else s.LatchBranches := by
  rcases ins with ⟨op, t, c, ss⟩
  cases op <;> first
    | rfl
    | (simp only [classify, countBr]; cases c <;> cases latchTest li loop current <;> rfl)
    | (simp only [classify, countArith, countShuffle]
       split_ifs <;> first | rfl | (exfalso; simp at *))

/-- C16, counterexample: in `nestedFn` block 3 is the designated latch of the outer loop and
ends in a conditional branch, but its innermost loop is the inner loop, whose latch is
block 4; its terminator is counted in `Branches`, and `LatchBranches` stays `0`. -/
theorem outer_latch_counted_ordinary :
    ∃ a, AnalyseFunction nestedFn nestedLi = some a ∧
      nestedLi.getLoopLatch 0 = some 3 ∧
      (nestedFn.block 3).terminator.opcode = Opcode.Br ∧
      (nestedFn.block 3).terminator.isConditional = true ∧
      (a.block_stats 3).map (fun s => (s.LatchBranches, s.Branches)) = some (0, 1) := by
  refine ⟨(AnalyseFunction nestedFn nestedLi).get (by decide), by simp, ?_⟩
  decide

/-- C16, amended: for every loop `l`, at any nesting depth, and every visited block `b`
whose innermost enclosing loop is `l`, that is the designated latch of `l` and whose only
`Br` is its conditional terminator, `LatchBranches = 1` and `Branches = 0`. -/
theorem innermost_latch_branch {n m : Nat} (fn : Function n) (li : LoopInfo n m) :
    ∃ a, AnalyseFunction fn li = some a ∧
      ∀ (l : Fin m) (b : Fin n) (s : Stats), a.block_stats b = some s →
        li.getLoopFor b = some l → li.getLoopLatch l = some b →
        (fn.block b).terminator.opcode = Opcode.Br →
        (fn.block b).terminator.isConditional = true →
        opcodeCount [Opcode.Br] (fn.block b).body = 0 →
        s.LatchBranches = 1 ∧ s.Branches = 0 := by
  obtain ⟨st, h1, _, h4, h5⟩ := AnalyseFunction_spec fn li
  refine ⟨report li st, h1, ?_⟩
  intro l b s hs hl hlatch hop hcond hbody
  obtain ⟨_, rfl⟩ := block_stats_of_some fn li st h4 h5 b s hs
  have ht : latchTest li (li.getLoopFor b) b = true := (latchTest_iff li b).mpr ⟨l, hl, hlatch⟩
  refine ⟨?_, (foldl_ordinary_counters li (li.getLoopFor b) b ht _ Stats.zero).1⟩
  have hfold := counter_foldl li (li.getLoopFor b) b (fun s => s.LatchBranches) _
    (step_LatchBranches li (li.getLoopFor b) b) (fn.block b).instructions Stats.zero
    (by decide)
  beta_reduce at hfold
  have hzero : (fn.block b).body.countP (fun i =>
      decide (i.opcode = Opcode.Br) && i.isConditional &&
        latchTest li (li.getLoopFor b) b) = 0 := by
    rw [List.countP_eq_zero]
    intro i hi
    have := (List.countP_eq_zero.mp hbody) i hi
    simp only [List.mem_singleton, decide_eq_true_eq] at this
    simp [this]
  rw [classifyBlock, hfold, BasicBlock.instructions, List.countP_append, hzero]
  simp [hop, hcond, ht, Stats.zero, UINT_RANGE]

/-- C16, instance of the amended statement: the single block of the loop of `doWhileFn` is
its own latch and ends in a conditional branch, counted as a latch branch. -/
theorem innermost_latch_branch_witness :
    ∃ a, AnalyseFunction doWhileFn doWhileLi = some a ∧
      ∀ s, a.block_stats 1 = some s → s.LatchBranches = 1 ∧ s.Branches = 0 := by
  obtain ⟨a, h, hl⟩ := innermost_latch_branch doWhileFn doWhileLi
  exact ⟨a, h, fun s hs => hl 0 1 s hs rfl rfl rfl rfl (by decide)⟩

/-- C18, counterexample: the header of the three-block loop is reachable and holds nothing
but its conditional branch, and its entry in `block_stats` has `Branches = 1`. -/
theorem branch_only_block_counts :
    ∃ a, AnalyseFunction loopFn loopLi = some a ∧ (loopFn.block 0).body = [] ∧
      (loopFn.block 0).terminator.opcode = Opcode.Br ∧
      (a.block_stats 0).map (fun s => s.Branches) = some 1 ∧
      a.block_stats 0 ≠ some Stats.zero := by
  refine ⟨(AnalyseFunction loopFn loopLi).get (by decide), by simp, ?_⟩
  decide

/-- C18, amended: a reachable block whose only instruction is its terminator has an entry
in `block_stats`; with a `Ret` (or any terminator that is not counted) every counter is `0`,
and with a `Br` every counter is `0` except one branch counter, which is `1`:
`LatchBranches` or `Branches` for a conditional branch, `LatchJumps` or `Jumps` for an
unconditional one, the latch counter when the block is the latch of its innermost loop. -/
theorem terminator_only_block {n m : Nat} (fn : Function n) (li : LoopInfo n m) :
    ∃ a, AnalyseFunction fn li = some a ∧
      ∀ b, Reachable fn b → (fn.block b).body = [] →
        (a.block_stats b).isSome = true ∧
        ((fn.block b).terminator.opcode = Opcode.Ret → a.block_stats b = some Stats.zero) ∧
        ((fn.block b).terminator.opcode ∉ countedOpcodes →
          a.block_stats b = some Stats.zero) ∧
        ((fn.block b).terminator.opcode = Opcode.Br →
          ((fn.block b).terminator.isConditional = true → isLatch li b →
            a.block_stats b = some { Stats.zero with LatchBranches := 1 }) ∧
          ((fn.block b).terminator.isConditional = true → ¬ isLatch li b →
            a.block_stats b = some { Stats.zero with Branches := 1 }) ∧
          ((fn.block b).terminator.isConditional = false → isLatch li b →
            a.block_stats b = some { Stats.zero with LatchJumps := 1 }) ∧
          ((fn.block b).terminator.isConditional = false → ¬ isLatch li b →
            a.block_stats b = some { Stats.zero with Jumps := 1 })) := by
  obtain ⟨st, h1, h3, h4, _⟩ := AnalyseFunction_spec fn li
  refine ⟨report li st, h1, ?_⟩
  intro b hb hbody
  have hval : (report li st).block_stats b =
      some (classify li (li.getLoopFor b) b Stats.zero (fn.block b).terminator) := by
    have := h4 b ((h3 b).mpr hb)
    simp only [classifyBlock, BasicBlock.instructions, hbody, List.nil_append,
      List.foldl_cons, List.foldl_nil] at this
    exact this
  have hnot : ∀ hl : ¬ isLatch li b, latchTest li (li.getLoopFor b) b = false := by
    intro hl
    cases hc : latchTest li (li.getLoopFor b) b with
    | false => rfl
    | true => exact absurd ((latchTest_iff li b).mp hc) hl
  refine ⟨by rw [hval]; rfl, ?_, ?_, ?_⟩
  · intro hop
    rw [hval]
    simp [classify, hop]
  · intro hop
    rw [hval]
    rcases hterm : (fn.block b).terminator with ⟨op, t, c, ss⟩
    rw [hterm] at hop
    cases op <;> first
      | rfl
      | (simp [countedOpcodes, arithmeticOpcodes] at hop)
  · intro hop
    rw [hval, classify_br li _ b Stats.zero _ hop]
    refine ⟨?_, ?_, ?_, ?_⟩
    · intro hc hl
      simp [countBr, hc, (latchTest_iff li b).mpr hl, Stats.zero, inc, UINT_RANGE]
    · intro hc hl
      simp [countBr, hc, hnot hl, Stats.zero, inc, UINT_RANGE]
    · intro hc hl
      simp [countBr, hc, (latchTest_iff li b).mpr hl, Stats.zero, inc, UINT_RANGE]
    · intro hc hl
      simp [countBr, hc, hnot hl, Stats.zero, inc, UINT_RANGE]

/-- C18, instance of the amended statement: the exit block of the three-block loop holds
only a `Ret`, and its entry has every counter `0`. -/
theorem terminator_only_block_witness :
    ∃ a, AnalyseFunction loopFn loopLi = some a ∧ a.block_stats 2 = some Stats.zero := by
  obtain ⟨a, h, hb⟩ := terminator_only_block loopFn loopLi
  have hr : Reachable loopFn 2 :=
    Relation.ReflTransGen.tail Relation.ReflTransGen.refl (by decide)
  exact ⟨a, h, (hb 2 hr rfl).2.1 rfl⟩

/-! ## Independence of the successor order -/

theorem classify_congr {n m : Nat} (li : LoopInfo n m) (loop : Option (Fin m)) (current : Fin n)
    (s : Stats) (ins ins' : Instruction n) (hop : ins'.opcode = ins.opcode)
    (hty : ins'.type = ins.type) (hc : ins'.isConditional = ins.isConditional) :
    classify li loop current s ins' = classify li loop current s ins := by
  rcases ins with ⟨op, t, c, ss⟩
  rcases ins' with ⟨op', t', c', ss'⟩
  simp only at hop hty hc
  subst hop hty hc
  cases op' <;> rfl

theorem classifyBlock_congr {n m : Nat} (fn fn' : Function n) (li : LoopInfo n m)
    (h : SameUpToSuccessorOrder fn fn') (b : Fin n) (s : Stats) :
    classifyBlock fn' li b s = classifyBlock fn li b s := by
  obtain ⟨hb, hop, hty, hc, _⟩ := h.2 b
  simp only [classifyBlock, BasicBlock.instructions, List.foldl_append, List.foldl_cons,
    List.foldl_nil, hb]
  exact classify_congr li _ b _ _ _ hop hty hc

theorem reachable_congr {n : Nat} (fn fn' : Function n) (h : SameUpToSuccessorOrder fn fn')
    (b : Fin n) : Reachable fn' b ↔ Reachable fn b := by
  have hrel : (fun a c => c ∈ fn'.successors a) = (fun a c => c ∈ fn.successors a) := by
    funext a c
    exact propext (h.2 a).2.2.2.2.mem_iff
  unfold Reachable
  rw [hrel, h.1]

theorem analysis_congr {n m : Nat} (fn fn' : Function n) (li : LoopInfo n m)
    (h : SameUpToSuccessorOrder fn fn') :
    ∃ st st', AnalyseFunction fn li = some (report li st) ∧
      AnalyseFunction fn' li = some (report li st') ∧
      st'.seen = st.seen ∧ st'.block_stats = st.block_stats := by
  obtain ⟨st, h1, h3, h4, h5⟩ := AnalyseFunction_spec fn li
  obtain ⟨st', h1', h3', h4', h5'⟩ := AnalyseFunction_spec fn' li
  have hseen : st'.seen = st.seen := by
    ext b
    rw [h3' b, h3 b, reachable_congr fn fn' h b]
  refine ⟨st, st', h1, h1', hseen, ?_⟩
  funext b
  by_cases hb : b ∈ st.seen
  · rw [h4 b hb, h4' b (hseen ▸ hb), classifyBlock_congr fn fn' li h b]
  · rw [h5 b hb, h5' b (hseen ▸ hb)]

/-- C19: two functions that differ only in the order of the successors of their terminators
get the same visited set, the same `block_stats` map, the same `loop_stats` map, the same
totals and the same report lines. -/
theorem successor_order_irrelevant {n m : Nat} (fn fn' : Function n) (li : LoopInfo n m)
    (h : SameUpToSuccessorOrder fn fn') :
    ∃ a a', AnalyseFunction fn li = some a ∧ AnalyseFunction fn' li = some a' ∧
      a'.seen = a.seen ∧ a'.block_stats = a.block_stats ∧ a'.loop_stats = a.loop_stats ∧
      a'.totals = a.totals ∧ a'.blockLines = a.blockLines ∧ a'.loopLines = a.loopLines := by
  obtain ⟨st, st', h1, h1', hseen, hbs⟩ := analysis_congr fn fn' li h
  refine ⟨report li st, report li st', h1, h1', hseen, hbs, ?_, ?_, ?_, ?_⟩ <;>
    simp only [report, hbs]

/-- C19, instance: exchanging the two successors of the header of the three-block loop
changes the order in which body and exit are dequeued, and none of the statistics. -/
theorem successor_order_irrelevant_witness :
    visitTrace loopFn loopLi loopFn.fuel (initialState loopFn) = [0, 1, 2] ∧
      visitTrace loopFnSwapped loopLi loopFnSwapped.fuel (initialState loopFnSwapped) =
        [0, 2, 1] ∧
      ∃ a a', AnalyseFunction loopFn loopLi = some a ∧
        AnalyseFunction loopFnSwapped loopLi = some a' ∧
        a'.seen = a.seen ∧ a'.block_stats = a.block_stats ∧ a'.loop_stats = a.loop_stats ∧
        a'.totals = a.totals ∧ a'.blockLines = a.blockLines ∧ a'.loopLines = a.loopLines :=
  ⟨by decide, by decide,
    successor_order_irrelevant loopFn loopFnSwapped loopLi (by
      refine ⟨rfl, ?_⟩
      decide)⟩

/-! ## Loop counts and loop-free counts against the totals -/

theorem sum_over_loops {n m : Nat} (li : LoopInfo n m) (seen : Finset (Fin n))
    (f : Fin n → Nat) :
    ∑ l : Fin m, ∑ b in seen.filter (fun b => li.getLoopFor b = some l), f b =
      ∑ b in seen.filter (fun b => ¬ li.getLoopFor b = none), f b := by
  simp only [Finset.sum_filter]
  rw [Finset.sum_comm]
  apply Finset.sum_congr rfl
  intro b _
  cases h : li.getLoopFor b with
  | none => simp
  | some l0 => simp [Finset.sum_ite_eq]

theorem partition_sel {n m : Nat} (fn : Function n) (li : LoopInfo n m) (st : LoopState n)
    (h4 : ∀ b ∈ st.seen, st.block_stats b = some (classifyBlock fn li b Stats.zero))
    (h5 : ∀ b, b ∉ st.seen → st.block_stats b = none) (sel : Stats → Nat)
    (hsel : ∀ t s, sel (totalsStep t s) = addU (sel t) (sel s)) (h0 : sel Stats.zero = 0)
    (hloop : ∀ f : (Stats → Nat) → Nat,
      sel (addArith Stats.zero (f (fun s => s.ArithOps.VectorFP))
        (f (fun s => s.ArithOps.VectorInt)) (f (fun s => s.ArithOps.ScalarFP))
        (f (fun s => s.ArithOps.ScalarInt))) = addU 0 (f sel))
    (hno : ∑ b in st.seen, sel (statsOf st.block_stats b) < UINT_RANGE) :
    ((entries (aggregateLoops li st.block_stats)).map (fun e => sel e.2)).sum +
        ∑ b in st.seen.filter (fun b => li.getLoopFor b = none), sel (statsOf st.block_stats b) =
      sel (computeTotals st.block_stats) := by
  have hsome := seen_isSome fn li st h4
  have hentry : ∀ l : Fin m,
      (match aggregateLoops li st.block_stats l with
        | some s => sel s
        | none => 0) =
      ∑ b in st.seen.filter (fun b => li.getLoopFor b = some l),
        sel (statsOf st.block_stats b) := by
    intro l
    have hle : ∑ b in st.seen.filter (fun b => li.getLoopFor b = some l),
        sel (statsOf st.block_stats b) ≤ ∑ b in st.seen, sel (statsOf st.block_stats b) :=
      Finset.sum_le_sum_of_subset (Finset.filter_subset _ _)
    rw [loop_stats_spec li st hsome h5 l]
    by_cases hex : ∃ b, b ∈ st.seen ∧ li.getLoopFor b = some l
    · rw [if_pos hex]
      have := hloop (fun sel' => ∑ b in st.seen.filter (fun b => li.getLoopFor b = some l),
        sel' (statsOf st.block_stats b))
      simp only [] at this
      show sel _ = _
      rw [this, addU_zero_left, Nat.mod_eq_of_lt (lt_of_le_of_lt hle hno)]
    · rw [if_neg hex]
      symm
      apply Finset.sum_eq_zero
      intro b hb
      rw [Finset.mem_filter] at hb
      exact absurd ⟨b, hb.1, hb.2⟩ hex
  rw [sum_entries (aggregateLoops li st.block_stats) (fun e => sel e.2)]
  simp only [hentry]
  rw [sum_over_loops li st.seen (fun b => sel (statsOf st.block_stats b)),
    computeTotals_sel st.block_stats st.seen hsome h5 sel hsel h0, Nat.mod_eq_of_lt hno,
    Nat.add_comm]
  exact Finset.sum_filter_add_sum_filter_not st.seen (fun b => li.getLoopFor b = none) _

/-- C20: for each arithmetic counter, absent 32-bit overflow (the counter summed over the
visited blocks is below `2 ^ 32`), the sum of the counter over the loops in `loop_stats` plus
its sum over the visited blocks with no enclosing loop equals the total, hence the sum of
the per-loop counts does not exceed the total. -/
theorem loops_and_free_blocks_partition {n m : Nat} (fn : Function n) (li : LoopInfo n m) :
    ∃ a, AnalyseFunction fn li = some a ∧
      LoopsAndFreeBlocksPartition li a (fun s => s.ArithOps.VectorFP) ∧
      LoopsAndFreeBlocksPartition li a (fun s => s.ArithOps.VectorInt) ∧
      LoopsAndFreeBlocksPartition li a (fun s => s.ArithOps.ScalarFP) ∧
      LoopsAndFreeBlocksPartition li a (fun s => s.ArithOps.ScalarInt) := by
  obtain ⟨st, h1, _, h4, h5⟩ := AnalyseFunction_spec fn li
  have key := partition_sel fn li st h4 h5
  refine ⟨report li st, h1, ?_, ?_, ?_, ?_⟩
  · intro hno
    have := key (fun s => s.ArithOps.VectorFP) (fun _ _ => rfl) rfl (fun _ => rfl) hno
    exact ⟨this, Nat.le.intro this⟩
  · intro hno
    have := key (fun s => s.ArithOps.VectorInt) (fun _ _ => rfl) rfl (fun _ => rfl) hno
    exact ⟨this, Nat.le.intro this⟩
  · intro hno
    have := key (fun s => s.ArithOps.ScalarFP) (fun _ _ => rfl) rfl (fun _ => rfl) hno
    exact ⟨this, Nat.le.intro this⟩
  · intro hno
    have := key (fun s => s.ArithOps.ScalarInt) (fun _ _ => rfl) rfl (fun _ => rfl) hno
    exact ⟨this, Nat.le.intro this⟩

/-- C20, instance: in the three-block loop nothing overflows, the loop accounts for both
scalar integer additions, and the per-loop sum does not exceed the total. -/
theorem loops_and_free_blocks_partition_witness :
    ∃ a, AnalyseFunction loopFn loopLi = some a ∧
      ((entries a.loop_stats).map (fun e => e.2.ArithOps.ScalarInt)).sum +
          ∑ b in a.seen.filter (fun b => loopLi.getLoopFor b = none),
            (statsOf a.block_stats b).ArithOps.ScalarInt =
        a.totals.ArithOps.ScalarInt ∧
      ((entries a.loop_stats).map (fun e => e.2.ArithOps.ScalarInt)).sum ≤
        a.totals.ArithOps.ScalarInt := by
  obtain ⟨a, h, _, _, _, hp⟩ := loops_and_free_blocks_partition loopFn loopLi
  have ha : (AnalyseFunction loopFn loopLi).get (by decide) = a :=
    Option.some.inj ((Option.some_get _).trans h)
  refine ⟨a, h, hp ?_⟩
  subst ha
  decide

/-! ## Branch counters of a block -/

theorem step_Branches {n m : Nat} (li : LoopInfo n m) (loop : Option (Fin m))
    (current : Fin n) (s : Stats) (ins : Instruction n) :
    (classify li loop current s ins).Branches =
      if (decide (ins.opcode = Opcode.Br) && ins.isConditional && !latchTest li loop current)
      then inc s.Branches else s.Branches := by
  rcases ins with ⟨op, t, c, ss⟩
  cases op <;> first
    | rfl
    | (simp only [classify, countBr]; cases c <;> cases latchTest li loop current <;> rfl)
    | (simp only [classify, countArith, countShuffle]
       split_ifs <;> first | rfl | (exfalso; simp at *))

theorem step_LatchJumps {n m : Nat} (li : LoopInfo n m) (loop : Option (Fin m))
    (current : Fin n) (s : Stats) (ins : Instruction n) :
    (classify li loop current s ins).LatchJumps =
      if (decide (ins.opcode = Opcode.Br) && !ins.isConditional && latchTest li loop current)
      then inc s.LatchJumps else s.LatchJumps := by
  rcases ins with ⟨op, t, c, ss⟩
  cases op <;> first
    | rfl
    | (simp only [classify, countBr]; cases c <;> cases latchTest li loop current <;> rfl)
    | (simp only [classify, countArith, countShuffle]
       split_ifs <;> first | rfl | (exfalso; simp at *))

theorem step_Jumps {n m : Nat} (li : LoopInfo n m) (loop : Option (Fin m))
    (current : Fin n) (s : Stats) (ins : Instruction n) :
    (classify li loop current s ins).Jumps =
      if (decide (ins.opcode = Opcode.Br) && !ins.isConditional && !latchTest li loop current)
      then inc s.Jumps else s.Jumps := by
  rcases ins with ⟨op, t, c, ss⟩
  cases op <;> first
    | rfl
    | (simp only [classify, countBr]; cases c <;> cases latchTest li loop current <;> rfl)
    | (simp only [classify, countArith, countShuffle]
       split_ifs <;> first | rfl | (exfalso; simp at *))

theorem branch_counters {n m : Nat} (fn : Function n) (li : LoopInfo n m) (b : Fin n) :
    (latchTest li (li.getLoopFor b) b = true →
      (classifyBlock fn li b Stats.zero).LatchBranches =
          condBrCount (fn.block b).instructions % UINT_RANGE ∧
        (classifyBlock fn li b Stats.zero).LatchJumps =
          jumpCount (fn.block b).instructions % UINT_RANGE) ∧
      (latchTest li (li.getLoopFor b) b = false →
        (classifyBlock fn li b Stats.zero).Branches =
            condBrCount (fn.block b).instructions % UINT_RANGE ∧
          (classifyBlock fn li b Stats.zero).Jumps =
            jumpCount (fn.block b).instructions % UINT_RANGE) := by
  have hz : (0 : Nat) < UINT_RANGE := by decide
  have h1 := counter_foldl li (li.getLoopFor b) b (fun s => s.LatchBranches) _
    (step_LatchBranches li (li.getLoopFor b) b) (fn.block b).instructions Stats.zero hz
  have h2 := counter_foldl li (li.getLoopFor b) b (fun s => s.LatchJumps) _
    (step_LatchJumps li (li.getLoopFor b) b) (fn.block b).instructions Stats.zero hz
  have h3 := counter_foldl li (li.getLoopFor b) b (fun s => s.Branches) _
    (step_Branches li (li.getLoopFor b) b) (fn.block b).instructions Stats.zero hz
  have h4 := counter_foldl li (li.getLoopFor b) b (fun s => s.Jumps) _
    (step_Jumps li (li.getLoopFor b) b) (fn.block b).instructions Stats.zero hz
  constructor
  · intro ht
    simp only [ht, Bool.and_true, Stats.zero, Nat.zero_add] at h1 h2
    exact ⟨h1, h2⟩
  · intro ht
    simp only [ht, Bool.not_false, Bool.and_true, Stats.zero, Nat.zero_add] at h3 h4
    exact ⟨h3, h4⟩

theorem brCounts_single_terminator {n : Nat} (blk : BasicBlock n)
    (hop : blk.terminator.opcode = Opcode.Br) (hbody : opcodeCount [Opcode.Br] blk.body = 0) :
    condBrCount blk.instructions = (if blk.terminator.isConditional then 1 else 0) ∧
      jumpCount blk.instructions = (if blk.terminator.isConditional then 0 else 1) := by
  have hno : ∀ i ∈ blk.body, i.opcode ≠ Opcode.Br := by
    intro i hi
    have := (List.countP_eq_zero.mp hbody) i hi
    simpa using this
  have hc : blk.body.countP (fun i => decide (i.opcode = Opcode.Br) && i.isConditional) = 0 := by
    rw [List.countP_eq_zero]
    intro i hi
    simp [hno i hi]
  have hj : blk.body.countP (fun i => decide (i.opcode = Opcode.Br) && !i.isConditional) = 0 := by
    rw [List.countP_eq_zero]
    intro i hi
    simp [hno i hi]
  simp only [condBrCount, jumpCount, BasicBlock.instructions, List.countP_append, hc, hj,
    Nat.zero_add]
  cases hcond : blk.terminator.isConditional <;> simp [hop, hcond]

/-- C4: for every visited block `b`, each `Br` of `b` is counted in `block_stats[b]`, in a
latch bucket (`LatchBranches` if conditional, `LatchJumps` if not) exactly when `b` is the
latch of its innermost loop and in the ordinary bucket (`Branches`, `Jumps`) otherwise: the
bucket counters hold the numbers of conditional and unconditional `Br` of the block (as
`unsigned int`), the other two branch counters are `0`, a block whose only `Br` is its
terminator has that one counter at `1`, and in a function where no block has an enclosing
loop every block has `LatchBranches = 0` and `LatchJumps = 0`. -/
theorem branch_buckets {n m : Nat} (fn : Function n) (li : LoopInfo n m) :
    ∃ a, AnalyseFunction fn li = some a ∧
      (∀ (b : Fin n) (stats : Stats) (ins : Instruction n), ins.opcode = Opcode.Br →
        (isLatch li b →
          classify li (li.getLoopFor b) b stats ins =
            if ins.isConditional then { stats with LatchBranches := inc stats.LatchBranches }
            else { stats with LatchJumps := inc stats.LatchJumps }) ∧
        (¬ isLatch li b →
          classify li (li.getLoopFor b) b stats ins =
            if ins.isConditional then { stats with Branches := inc stats.Branches }
            else { stats with Jumps := inc stats.Jumps })) ∧
      (∀ b s, a.block_stats b = some s → isLatch li b →
        s.LatchBranches = condBrCount (fn.block b).instructions % UINT_RANGE ∧
        s.LatchJumps = jumpCount (fn.block b).instructions % UINT_RANGE ∧
        s.Branches = 0 ∧ s.Jumps = 0) ∧
      (∀ b s, a.block_stats b = some s → ¬ isLatch li b →
        s.Branches = condBrCount (fn.block b).instructions % UINT_RANGE ∧
        s.Jumps = jumpCount (fn.block b).instructions % UINT_RANGE ∧
        s.LatchBranches = 0 ∧ s.LatchJumps = 0) ∧
      (∀ b s, a.block_stats b = some s → (fn.block b).terminator.opcode = Opcode.Br →
        opcodeCount [Opcode.Br] (fn.block b).body = 0 →
        ((fn.block b).terminator.isConditional = true → isLatch li b →
          s.LatchBranches = 1 ∧ s.LatchJumps = 0 ∧ s.Branches = 0 ∧ s.Jumps = 0) ∧
        ((fn.block b).terminator.isConditional = true → ¬ isLatch li b →
          s.Branches = 1 ∧ s.Jumps = 0 ∧ s.LatchBranches = 0 ∧ s.LatchJumps = 0) ∧
        ((fn.block b).terminator.isConditional = false → isLatch li b →
          s.LatchJumps = 1 ∧ s.LatchBranches = 0 ∧ s.Branches = 0 ∧ s.Jumps = 0) ∧
        ((fn.block b).terminator.isConditional = false → ¬ isLatch li b →
          s.Jumps = 1 ∧ s.Branches = 0 ∧ s.LatchBranches = 0 ∧ s.LatchJumps = 0)) ∧
      ((∀ b, li.getLoopFor b = none) →
        ∀ b s, a.block_stats b = some s → s.LatchBranches = 0 ∧ s.LatchJumps = 0) := by
  obtain ⟨st, h1, _, h4, h5⟩ := AnalyseFunction_spec fn li
  have hfalse : ∀ b, ¬ isLatch li b → latchTest li (li.getLoopFor b) b = false := by
    intro b hl
    cases hc : latchTest li (li.getLoopFor b) b with
    | false => rfl
    | true => exact absurd ((latchTest_iff li b).mp hc) hl
  have hlatch : ∀ b s, st.block_stats b = some s → isLatch li b →
      s.LatchBranches = condBrCount (fn.block b).instructions % UINT_RANGE ∧
      s.LatchJumps = jumpCount (fn.block b).instructions % UINT_RANGE ∧
      s.Branches = 0 ∧ s.Jumps = 0 := by
    intro b s hs hl
    obtain ⟨_, rfl⟩ := block_stats_of_some fn li st h4 h5 b s hs
    have ht := (latchTest_iff li b).mpr hl
    have hc := (branch_counters fn li b).1 ht
    have hz := foldl_ordinary_counters li (li.getLoopFor b) b ht (fn.block b).instructions
      Stats.zero
    exact ⟨hc.1, hc.2, hz.1, hz.2⟩
  have hnot : ∀ b s, st.block_stats b = some s → ¬ isLatch li b →
      s.Branches = condBrCount (fn.block b).instructions % UINT_RANGE ∧
      s.Jumps = jumpCount (fn.block b).instructions % UINT_RANGE ∧
      s.LatchBranches = 0 ∧ s.LatchJumps = 0 := by
    intro b s hs hl
    obtain ⟨_, rfl⟩ := block_stats_of_some fn li st h4 h5 b s hs
    have ht := hfalse b hl
    have hc := (branch_counters fn li b).2 ht
    have hz := foldl_latch_counters li (li.getLoopFor b) b ht (fn.block b).instructions
      Stats.zero
    exact ⟨hc.1, hc.2, hz.1, hz.2⟩
  refine ⟨report li st, h1, ?_, hlatch, hnot, ?_, ?_⟩
  · intro b stats ins hop
    rw [classify_br li _ b stats ins hop]
    constructor
    · intro hl
      have ht := (latchTest_iff li b).mpr hl
      cases hc : ins.isConditional <;> simp [countBr, ht]
    · intro hl
      have ht := hfalse b hl
      cases hc : ins.isConditional <;> simp [countBr, ht]
  · intro b s hs hop hbody
    obtain ⟨hcb, hjc⟩ := brCounts_single_terminator (fn.block b) hop hbody
    refine ⟨?_, ?_, ?_, ?_⟩
    · intro hcond hl
      obtain ⟨q1, q2, q3, q4⟩ := hlatch b s hs hl
      rw [hcb, hcond] at q1
      rw [hjc, hcond] at q2
      exact ⟨q1, q2, q3, q4⟩
    · intro hcond hl
      obtain ⟨q1, q2, q3, q4⟩ := hnot b s hs hl
      rw [hcb, hcond] at q1
      rw [hjc, hcond] at q2
      exact ⟨q1, q2, q3, q4⟩
    · intro hcond hl
      obtain ⟨q1, q2, q3, q4⟩ := hlatch b s hs hl
      rw [hcb, hcond] at q1
      rw [hjc, hcond] at q2
      exact ⟨q2, q1, q3, q4⟩
    · intro hcond hl
      obtain ⟨q1, q2, q3, q4⟩ := hnot b s hs hl
      rw [hcb, hcond] at q1
      rw [hjc, hcond] at q2
      exact ⟨q2, q1, q3, q4⟩
  · intro hnone b s hs
    have hl : ¬ isLatch li b := by
      rintro ⟨l, hl, _⟩
      rw [hnone b] at hl
      cases hl
    exact ⟨(hnot b s hs hl).2.2.1, (hnot b s hs hl).2.2.2⟩

/-- C4, instances: in the three-block loop the body is the latch and its unconditional `Br`
is counted in `LatchJumps`, the header is no latch and its conditional `Br` is counted in
`Branches`; in `doWhileFn` the block of the loop is its own latch and its conditional `Br` is
counted in `LatchBranches`; in the loop-free `straightFn` every latch counter is `0`. -/
theorem branch_buckets_witness :
    (∃ a, AnalyseFunction loopFn loopLi = some a ∧
      (∀ s, a.block_stats 1 = some s →
        s.LatchJumps = 1 ∧ s.LatchBranches = 0 ∧ s.Branches = 0 ∧ s.Jumps = 0) ∧
      (∀ s, a.block_stats 0 = some s →
        s.Branches = 1 ∧ s.Jumps = 0 ∧ s.LatchBranches = 0 ∧ s.LatchJumps = 0)) ∧
    (∃ a, AnalyseFunction doWhileFn doWhileLi = some a ∧
      ∀ s, a.block_stats 1 = some s →
        s.LatchBranches = 1 ∧ s.LatchJumps = 0 ∧ s.Branches = 0 ∧ s.Jumps = 0) ∧
    (∃ a, AnalyseFunction straightFn (noLoops 2) = some a ∧
      ∀ b s, a.block_stats b = some s → s.LatchBranches = 0 ∧ s.LatchJumps = 0) := by
  refine ⟨?_, ?_, ?_⟩
  · obtain ⟨a, h, _, _, _, hone, _⟩ := branch_buckets loopFn loopLi
    refine ⟨a, h, fun s hs => ?_, fun s hs => ?_⟩
    · exact (hone 1 s hs rfl (by decide)).2.2.1 rfl ⟨0, rfl, rfl⟩
    · refine (hone 0 s hs rfl (by decide)).2.1 rfl ?_
      rintro ⟨l, _, hl⟩
      exact absurd (Option.some.inj (hl : some (1 : Fin 3) = some 0)) (by decide)
  · obtain ⟨a, h, _, _, _, hone, _⟩ := branch_buckets doWhileFn doWhileLi
    exact ⟨a, h, fun s hs => (hone 1 s hs rfl (by decide)).1 rfl ⟨0, rfl, rfl⟩⟩
  · obtain ⟨a, h, _, _, _, _, hfree⟩ := branch_buckets straightFn (noLoops 2)
    exact ⟨a, h, hfree (fun _ => rfl)⟩

/-- C17: a `ShuffleVector` instruction (whose result type is a vector, as LLVM builds it)
increments the arithmetic counter chosen from its result type by the same rule as an
arithmetic op: it is classified like an `Add` of the same result type, into the bucket the
specification names for that type, `VectorFP` for floating-point elements and `VectorInt`
for any other element type. -/
theorem shuffle_classified_like_add {n m : Nat} (li : LoopInfo n m) (loop : Option (Fin m))
    (current : Fin n) (stats : Stats) (ins ins' : Instruction n)
    (hw : ins.WellTyped) (hs : ins.opcode = Opcode.ShuffleVector)
    (ha : ins'.opcode = Opcode.Add) (ht : ins'.type = ins.type) :
    classify li loop current stats ins = classify li loop current stats ins' ∧
      classify li loop current stats ins = (bucketOfType ins.type).bump stats ∧
      ∃ e, ins.type = Ty.Vector e ∧
        classify li loop current stats ins =
          (if e = ScalarTy.FloatingPoint then Bucket.VectorFP else Bucket.VectorInt).bump
            stats := by
  have hv := hw hs
  rw [classify_shuffle li loop current stats ins hs,
    classify_arith li loop current stats ins' (by rw [ha]; decide), ht]
  rcases hty : ins.type with t | t
  · rw [hty] at hv
    cases hv
  · cases t <;> exact ⟨rfl, rfl, _, rfl, rfl⟩

/-- C17, instances on a vector of floats and on a vector of integers. -/
theorem shuffle_classified_like_add_witness :
    (classify loopLi none (0 : Fin 3) Stats.zero
        (plainIns .ShuffleVector (.Vector .FloatingPoint)) =
      classify loopLi none (0 : Fin 3) Stats.zero (plainIns .Add (.Vector .FloatingPoint)) ∧
      classify loopLi none (0 : Fin 3) Stats.zero
        (plainIns .ShuffleVector (.Vector .FloatingPoint)) =
      Bucket.VectorFP.bump Stats.zero) ∧
    (classify loopLi none (0 : Fin 3) Stats.zero
        (plainIns .ShuffleVector (.Vector .Integer)) =
      classify loopLi none (0 : Fin 3) Stats.zero (plainIns .Add (.Vector .Integer)) ∧
      classify loopLi none (0 : Fin 3) Stats.zero
        (plainIns .ShuffleVector (.Vector .Integer)) =
      Bucket.VectorInt.bump Stats.zero) := by
  have h1 := shuffle_classified_like_add loopLi none (0 : Fin 3) Stats.zero
    (plainIns .ShuffleVector (.Vector .FloatingPoint)) (plainIns .Add (.Vector .FloatingPoint))
    (fun _ => rfl) rfl rfl rfl
  have h2 := shuffle_classified_like_add loopLi none (0 : Fin 3) Stats.zero
    (plainIns .ShuffleVector (.Vector .Integer)) (plainIns .Add (.Vector .Integer))
    (fun _ => rfl) rfl rfl rfl
  exact ⟨⟨h1.1, h1.2.1⟩, ⟨h2.1, h2.2.1⟩⟩

end SBKC
